import Mathlib

set_option maxRecDepth 8000

/-!
Shallow embedding of the text-correction core of HandyMedMac
(file src-tauri/src/audio_toolkit/text.rs) and proofs about it.

Rust strings are modelled as lists of characters (`RStr`); Rust byte
lengths are modelled by `utf8Len` (the sum of the UTF-8 sizes of the
characters).  The `f64` threshold and the derived scores are modelled as
exact rationals.  Character predicates (`is_alphabetic`, `is_uppercase`,
`is_whitespace`) and the case mappings are modelled on their ASCII
fragment, which is the range exercised by every theorem below; the one
non-ASCII character used (the punctuation character U+00AB) is
non-alphabetic both in Rust and in this model.  A Rust panic is modelled
by `Option.none`: every function that can reach a panicking slice
operation returns an `Option`.
-/

namespace HandyMed

abbrev RStr : Type := List Char

/-- Byte length of a string, as Rust `str::len` computes it. -/
def utf8Len (s : RStr) : Nat := (s.map Char.utf8Size).sum

/-- Model of Rust `char::is_alphabetic` (ASCII fragment). -/
def rust_is_alphabetic (c : Char) : Bool := c.isAlpha

/-- Model of Rust `char::is_uppercase` (ASCII fragment). -/
def rust_is_uppercase (c : Char) : Bool := c.isUpper

/-- Model of Rust `char::is_whitespace` (ASCII fragment). -/
def rust_is_whitespace (c : Char) : Bool := c.isWhitespace

/-- Model of Rust `str::to_lowercase` (ASCII fragment, one char per char). -/
def strToLower (s : RStr) : RStr := s.map Char.toLower

/-- Model of Rust `str::to_uppercase` (ASCII fragment, one char per char). -/
def strToUpper (s : RStr) : RStr := s.map Char.toUpper

/-- Accumulator loop for `split_whitespace`. -/
def split_ws_aux : RStr → RStr → List RStr
  | [], acc => if acc = [] then [] else [acc.reverse]
  | c :: cs, acc =>
    if rust_is_whitespace c then
      if acc = [] then split_ws_aux cs []
      else acc.reverse :: split_ws_aux cs []
    else split_ws_aux cs (c :: acc)

/-- Model of Rust `str::split_whitespace`: maximal non-blank runs, empties
dropped. -/
def split_whitespace (s : RStr) : List RStr := split_ws_aux s []

/-- Model of `Vec::join(" ")` on the corrected words. -/
def joinSpace : List RStr → RStr
  | [] => []
  | [w] => w
  | w :: ws => w ++ ' ' :: joinSpace ws

/-- Model of `word.trim_matches(|c: char| !c.is_alphabetic())`. -/
def trimNonAlpha (s : RStr) : RStr :=
  (((s.dropWhile (fun c => !rust_is_alphabetic c)).reverse.dropWhile
    (fun c => !rust_is_alphabetic c)).reverse)

/-- Fuelled Levenshtein recurrence.  The fuel only serves structural
recursion; with fuel at least `s.length + t.length` the fallback line is
unreachable, and the wrapper below always supplies that much. -/
def levF : Nat → List Char → List Char → Nat
  | _, [], t => t.length
  | _, s, [] => s.length
  | 0, s, t => s.length + t.length
  | fuel + 1, a :: s, b :: t =>
    if a = b then levF fuel s t
    else 1 + min (levF fuel s (b :: t)) (min (levF fuel (a :: s) t) (levF fuel s t))

/-- Levenshtein edit distance on characters, the metric used both by
`strsim::levenshtein` and by the BK-tree metric. -/
def levenshtein (s t : List Char) : Nat := levF (s.length + t.length) s t

/-- Soundex digit of a letter (uppercase input). -/
def soundexDigit (c : Char) : Option Char :=
  if c = 'B' ∨ c = 'F' ∨ c = 'P' ∨ c = 'V' then some '1'
  else if c = 'C' ∨ c = 'G' ∨ c = 'J' ∨ c = 'K' ∨ c = 'Q' ∨ c = 'S' ∨ c = 'X' ∨ c = 'Z' then some '2'
  else if c = 'D' ∨ c = 'T' then some '3'
  else if c = 'L' then some '4'
  else if c = 'M' ∨ c = 'N' then some '5'
  else if c = 'R' then some '6'
  else none

/-- Digit sequence of a Soundex code: skipped letters reset the
duplicate-collapsing state. -/
def soundexDigits : Option Char → List Char → List Char
  | _, [] => []
  | prev, c :: cs =>
    match soundexDigit c with
    | none => soundexDigits none cs
    | some d => if prev = some d then soundexDigits (some d) cs
                else d :: soundexDigits (some d) cs

/-- Soundex code of a word: first letter kept, following letters coded and
collapsed, padded with zeros to four characters.  Models the code
comparison done by `natural::phonetics::soundex`. -/
def soundexCode (s : RStr) : RStr :=
  match strToUpper s with
  | [] => []
  | c :: cs =>
    let ds := (soundexDigits (soundexDigit c) cs).take 3
    c :: (ds ++ List.replicate (3 - ds.length) '0')

/-- Model of `natural::phonetics::soundex(a, b)`: equality of codes. -/
def soundexEq (a b : RStr) : Bool := soundexCode a = soundexCode b

/-- Model of `iter().position(|w| w == candidate)`. -/
def position : List RStr → RStr → Option Nat
  | [], _ => none
  | w :: ws, c => if w = c then some 0 else (position ws c).map (· + 1)

/-- Taking the first `n` BYTES of a string; `none` when `n` is not a char
boundary, which in Rust is a panic. -/
def bytePrefixSlice : RStr → Nat → Option RStr
  | _, 0 => some []
  | [], _ + 1 => none
  | c :: cs, n + 1 =>
    if c.utf8Size ≤ n + 1 then (bytePrefixSlice cs (n + 1 - c.utf8Size)).map (c :: ·)
    else none

/-- Taking the last `n` BYTES of a string; `none` models the panic on a
non-boundary. -/
def byteSuffixAux : RStr → Nat → Option RStr
  | _, 0 => some []
  | [], _ + 1 => none
  | c :: cs, n + 1 =>
    if c.utf8Size ≤ n + 1 then (byteSuffixAux cs (n + 1 - c.utf8Size)).map (· ++ [c])
    else none

def byteSuffixSlice (s : RStr) (n : Nat) : Option RStr := byteSuffixAux s.reverse n

/-- Model of `extract_punctuation`.  The Rust function counts leading and
trailing non-alphabetic CHARACTERS but slices the string at those counts
taken as BYTE indices; a slice inside a multi-byte character panics,
modelled by `none`. -/
def extract_punctuation (word : RStr) : Option (RStr × RStr) := do
  let prefix_end := (word.takeWhile (fun c => !rust_is_alphabetic c)).length
  let suffix_start := (word.reverse.takeWhile (fun c => !rust_is_alphabetic c)).length
  let pre ← if prefix_end > 0 then bytePrefixSlice word prefix_end else some []
  let suf ← if suffix_start > 0 then byteSuffixSlice word suffix_start else some []
  some (pre, suf)

/-- Model of `preserve_case_pattern`. -/
def preserve_case_pattern (original replacement : RStr) : RStr :=
  if original.all (fun c => rust_is_uppercase c) then strToUpper replacement
  else if (original.head?.map (fun c => rust_is_uppercase c)).getD false then
    match replacement with
    | [] => []
    | c :: cs => c.toUpper :: cs
  else replacement

/-- Exact product of rationals, written through `mkRat` so that it
reduces in the kernel; equal to `a * b` (see `ratMul_eq`). -/
def ratMul (a b : ℚ) : ℚ := mkRat (a.num * b.num) (a.den * b.den)

/-- Normalized Levenshtein score, `dist / max(len a, len b)` with the
degenerate case mapped to 1, as in the Rust sources (byte lengths); the
division is the exact rational `mkRat`. -/
def scoreOfDist (cw cand : RStr) (dist : Nat) : ℚ :=
  let max_len := max (utf8Len cw) (utf8Len cand)
  if 0 < max_len then mkRat dist max_len else 1

/-- Combined score: the phonetic discount multiplies by 0.3 on Soundex
equality. -/
def combinedOf (cw cand : RStr) (score : ℚ) : ℚ :=
  if soundexEq cw cand then ratMul score (mkRat 3 10) else score

/-- Condition `combined_score < best_score` against an initial
`f64::MAX`: an absent best is beaten by anything. -/
def beatsBest (c : ℚ) : Option (RStr × ℚ) → Prop
  | none => True
  | some (_, bs) => c < bs

instance (c : ℚ) (best : Option (RStr × ℚ)) : Decidable (beatsBest c best) :=
  match best with
  | none => isTrue trivial
  | some p => inferInstanceAs (Decidable (c < p.2))

/-- Candidate loop of `apply_corrections_impl` (text.rs lines 39-70):
resolve the candidate through `position` on the lowercase list, stop at
an exact match, skip raw scores above the threshold, apply the phonetic
discount, keep the strictly best accepted candidate. -/
def findBest (ow wl : List RStr) (cw : RStr) (t : ℚ) :
    List (Nat × RStr) → Option (RStr × ℚ) → Option RStr
  | [], best => best.map Prod.fst
  | (dist, cand) :: rest, best =>
    match position wl cand with
    | none => findBest ow wl cw t rest best
    | some i =>
      if dist = 0 then some (ow.getD i [])
      else
        let score := scoreOfDist cw cand dist
        if t < score then findBest ow wl cw t rest best
        else
          let combined := combinedOf cw cand score
          if combined < t ∧ beatsBest combined best then
            findBest ow wl cw t rest (some (ow.getD i [], combined))
          else findBest ow wl cw t rest best

/-- Per-token body of `apply_corrections_impl` (lines 25-79). -/
def correct_word_impl (ow wl : List RStr) (t : ℚ)
    (find_candidates : RStr → List (Nat × RStr)) (word : RStr) : Option RStr :=
  let cleaned := strToLower (trimNonAlpha word)
  if cleaned = [] ∨ 50 < utf8Len cleaned then some word
  else
    match findBest ow wl cleaned t (find_candidates cleaned) none with
    | none => some word
    | some repl =>
      match extract_punctuation word with
      | none => none
      | some ps => some (ps.1 ++ preserve_case_pattern word repl ++ ps.2)

/-- Model of `apply_corrections_impl`: split, correct each token, join
with single spaces.  `none` models a panic in a token. -/
def apply_corrections_impl (text : RStr) (original_words words_lower : List RStr) (t : ℚ)
    (find_candidates : RStr → List (Nat × RStr)) : Option RStr :=
  ((split_whitespace text).mapM
    (correct_word_impl original_words words_lower t find_candidates)).map joinSpace

/-- Node of the metric tree of the `bk_tree` crate: a key and children
indexed by their distance to the key. -/
inductive BKNode : Type where
  | mk : RStr → List (Nat × BKNode) → BKNode

/-- Child-list step of BK-tree insertion: descend along the edge whose
label equals the computed distance, or append a new leaf. -/
def addChildF (go : BKNode → BKNode) : List (Nat × BKNode) → Nat → RStr → List (Nat × BKNode)
  | [], d, w => [(d, .mk w [])]
  | (k, c) :: rest, d, w =>
    if k = d then (k, go c) :: rest
    else (k, c) :: addChildF go rest d w

/-- Insertion in the BK-tree: route along the edge whose label equals the
distance to the current key; a key at distance 0 is already present and
is not duplicated.  The fuel only serves structural recursion: it bounds
the descent depth and the wrappers below supply more than the depth of
any tree they build. -/
def BKNode.add : Nat → BKNode → RStr → BKNode
  | 0, n, _ => n
  | fuel + 1, .mk key children, w =>
    let d := levenshtein w key
    if d = 0 then .mk key children
    else .mk key (addChildF (fun c => BKNode.add fuel c w) children d w)

/-- Child-list step of the BK-tree range query, pruning children by the
triangle inequality. -/
def findChildrenF (go : BKNode → List (Nat × RStr)) (tol d : Nat) :
    List (Nat × BKNode) → List (Nat × RStr)
  | [] => []
  | (k, c) :: rest =>
    (if d - k ≤ tol ∧ k - d ≤ tol then go c else []) ++ findChildrenF go tol d rest

/-- Range query on the BK-tree: report the key when within tolerance and
recurse into the surviving children.  Fuel as in `BKNode.add`. -/
def BKNode.find (q : RStr) (tol : Nat) : Nat → BKNode → List (Nat × RStr)
  | 0, _ => []
  | fuel + 1, .mk key children =>
    let d := levenshtein q key
    (if d ≤ tol then [(d, key)] else []) ++
      findChildrenF (BKNode.find q tol fuel) tol d children

/-- The `BKTree` of the crate: an optional root. -/
structure BKTreeRust : Type where
  root : Option BKNode

def BKTreeRust.add (tr : BKTreeRust) (fuel : Nat) (w : RStr) : BKTreeRust :=
  match tr.root with
  | none => ⟨some (.mk w [])⟩
  | some n => ⟨some (n.add fuel w)⟩

def BKTreeRust.find (tr : BKTreeRust) (q : RStr) (tol fuel : Nat) : List (Nat × RStr) :=
  match tr.root with
  | none => []
  | some n => n.find q tol fuel

/-- Tree built by inserting the lowercase words in order; every insertion
carries fuel exceeding any reachable depth. -/
def bktree_of (ws : List RStr) : BKTreeRust :=
  ws.foldl (fun tr w => tr.add (ws.length + 1) w) ⟨none⟩

/-- The computation `((max_word_len as f64) * threshold * 1.5).ceil() as u32`. -/
def max_distance (len : Nat) (t : ℚ) : Nat :=
  ((ratMul (ratMul (mkRat len 1) t) (mkRat 3 2)).ceil).toNat

/-- Model of `iter().enumerate()`. -/
def enumFrom : Nat → List RStr → List (Nat × RStr)
  | _, [] => []
  | n, w :: ws => (n, w) :: enumFrom (n + 1) ws

/-- Length buckets as built from the lowercase word list: the bucket of
`len` holds the enumerated entries of that byte length, in index order
(extensionally the `HashMap<usize, Vec<(usize, String)>>` of the code). -/
def buckets_of (wl : List RStr) : Nat → List (Nat × RStr) :=
  fun len => (enumFrom 0 wl).filter (fun p => utf8Len p.2 = len)

def BKTREE_THRESHOLD : Nat := 200

/-- The bucket window `min_len..=max_len` around a target length,
saturating below at 0. -/
def window_lens (target : Nat) : List Nat :=
  List.range' (target - 5) (target + 5 + 1 - (target - 5))

/-- Candidate closure of `CustomWordsCache::apply_with_bktree`. -/
def bktree_candidates (tree : BKTreeRust) (fuel : Nat) (t : ℚ) (cw : RStr) : List (Nat × RStr) :=
  tree.find cw (max_distance (utf8Len cw) t) fuel

/-- Candidate closure of `CustomWordsCache::apply_with_bucketing`: all
bucket entries in the window, each with its computed distance. -/
def bucket_candidates (buckets : Nat → List (Nat × RStr)) (cw : RStr) : List (Nat × RStr) :=
  (window_lens (utf8Len cw)).flatMap
    (fun len => (buckets len).map (fun p => (levenshtein cw p.2, p.2)))

/-- Model of `CustomWordsCache`. -/
structure CustomWordsCache : Type where
  words_lower : List RStr
  length_buckets : Nat → List (Nat × RStr)
  bk_tree : Option BKTreeRust

/-- Model of `CustomWordsCache::new`. -/
def CustomWordsCache.new (custom_words : List RStr) : CustomWordsCache :=
  if custom_words.isEmpty then ⟨[], fun _ => [], none⟩
  else
    let wl := custom_words.map strToLower
    if BKTREE_THRESHOLD ≤ custom_words.length then
      ⟨wl, fun _ => [], some (bktree_of wl)⟩
    else
      ⟨wl, buckets_of wl, none⟩

/-- Model of `CustomWordsCache::apply_with_bktree`; the `unwrap` is only
reached with a present tree, modelled by a default. -/
def CustomWordsCache.apply_with_bktree (cache : CustomWordsCache) (text : RStr)
    (original_words : List RStr) (t : ℚ) : Option RStr :=
  let tree := cache.bk_tree.getD ⟨none⟩
  apply_corrections_impl text original_words cache.words_lower t
    (bktree_candidates tree (cache.words_lower.length + 1) t)

/-- Model of `CustomWordsCache::apply_with_bucketing`. -/
def CustomWordsCache.apply_with_bucketing (cache : CustomWordsCache) (text : RStr)
    (original_words : List RStr) (t : ℚ) : Option RStr :=
  apply_corrections_impl text original_words cache.words_lower t
    (bucket_candidates cache.length_buckets)

/-- Model of `CustomWordsCache::apply_corrections`. -/
def CustomWordsCache.apply_corrections (cache : CustomWordsCache) (text : RStr)
    (original_words : List RStr) (t : ℚ) : Option RStr :=
  if cache.words_lower.isEmpty then some text
  else if cache.bk_tree.isSome then cache.apply_with_bktree text original_words t
  else cache.apply_with_bucketing text original_words t

/-- Candidate loop of `apply_custom_words_bktree` (lines 708-743), whose
body coincides with the loop of `apply_corrections_impl`. -/
def bktree_scan (ow wl : List RStr) (cw : RStr) (t : ℚ) :
    List (Nat × RStr) → Option (RStr × ℚ) → Option RStr
  | [], best => best.map Prod.fst
  | (bk_distance, cand) :: rest, best =>
    match position wl cand with
    | none => bktree_scan ow wl cw t rest best
    | some i =>
      if bk_distance = 0 then some (ow.getD i [])
      else
        let score := scoreOfDist cw cand bk_distance
        if t < score then bktree_scan ow wl cw t rest best
        else
          let combined := combinedOf cw cand score
          if combined < t ∧ beatsBest combined best then
            bktree_scan ow wl cw t rest (some (ow.getD i [], combined))
          else bktree_scan ow wl cw t rest best

/-- Per-token body of the standalone `apply_custom_words_bktree`. -/
def correct_word_bktree (custom_words wl : List RStr) (tree : BKTreeRust) (fuel : Nat)
    (t : ℚ) (word : RStr) : Option RStr :=
  let cleaned := strToLower (trimNonAlpha word)
  if cleaned = [] then some word
  else if 50 < utf8Len cleaned then some word
  else
    let candidates := tree.find cleaned (max_distance (utf8Len cleaned) t) fuel
    match bktree_scan custom_words wl cleaned t candidates none with
    | none => some word
    | some repl =>
      match extract_punctuation word with
      | none => none
      | some ps => some (ps.1 ++ preserve_case_pattern word repl ++ ps.2)

/-- Model of `apply_custom_words_bktree` (Phase 3). -/
def apply_custom_words_bktree (text : RStr) (custom_words : List RStr) (t : ℚ) :
    Option RStr :=
  let wl := custom_words.map strToLower
  let tree := bktree_of wl
  ((split_whitespace text).mapM
    (correct_word_bktree custom_words wl tree (custom_words.length + 1) t)).map joinSpace

/-- Inner bucket loop of `apply_custom_words_bucketing` (lines 797-834):
uses the STORED index of each entry and breaks with best score 0 on an
exact match. -/
def bucket_scan (ow : List RStr) (cw : RStr) (t : ℚ) :
    List (Nat × RStr) → Option (RStr × ℚ) → Option (RStr × ℚ)
  | [], best => best
  | (idx, w) :: rest, best =>
    let dist := levenshtein cw w
    let score := scoreOfDist cw w dist
    if dist = 0 then some (ow.getD idx [], 0)
    else if t < score then bucket_scan ow cw t rest best
    else
      let combined := combinedOf cw w score
      if combined < t ∧ beatsBest combined best then
        bucket_scan ow cw t rest (some (ow.getD idx [], combined))
      else bucket_scan ow cw t rest best

/-- Outer window loop of `apply_custom_words_bucketing`: scan each bucket
in the window, stopping after a bucket that produced an exact match. -/
def bucket_scan_window (ow : List RStr) (cw : RStr) (t : ℚ)
    (buckets : Nat → List (Nat × RStr)) :
    List Nat → Option (RStr × ℚ) → Option (RStr × ℚ)
  | [], best => best
  | len :: lens, best =>
    let best1 := bucket_scan ow cw t (buckets len) best
    match best1 with
    | some (w, s) => if s = 0 then some (w, s) else bucket_scan_window ow cw t buckets lens best1
    | none => bucket_scan_window ow cw t buckets lens best1

/-- Per-token body of the standalone `apply_custom_words_bucketing`. -/
def correct_word_bucketing (custom_words : List RStr)
    (buckets : Nat → List (Nat × RStr)) (t : ℚ) (word : RStr) : Option RStr :=
  let cleaned := strToLower (trimNonAlpha word)
  if cleaned = [] then some word
  else if 50 < utf8Len cleaned then some word
  else
    match (bucket_scan_window custom_words cleaned t buckets
        (window_lens (utf8Len cleaned)) none).map Prod.fst with
    | none => some word
    | some repl =>
      match extract_punctuation word with
      | none => none
      | some ps => some (ps.1 ++ preserve_case_pattern word repl ++ ps.2)

/-- Model of `apply_custom_words_bucketing` (Phase 2); the buckets are
built once from the vocabulary, lowercasing each entry. -/
def apply_custom_words_bucketing (text : RStr) (custom_words : List RStr) (t : ℚ) :
    Option RStr :=
  let buckets := buckets_of (custom_words.map strToLower)
  ((split_whitespace text).mapM (correct_word_bucketing custom_words buckets t)).map joinSpace

/-- Model of `apply_custom_words`: empty vocabulary short-circuits to the
input; otherwise the strategy is chosen by the 200-entry threshold. -/
def apply_custom_words (text : RStr) (custom_words : List RStr) (t : ℚ) : Option RStr :=
  if custom_words.isEmpty then some text
  else if BKTREE_THRESHOLD ≤ custom_words.length then
    apply_custom_words_bktree text custom_words t
  else apply_custom_words_bucketing text custom_words t

/-- The per-token corrector that `apply_custom_words` applies to each
whitespace token, selected by the same 200-entry strategy threshold. -/
def correct_word_dispatch (custom_words : List RStr) (t : ℚ) : RStr → Option RStr :=
  if BKTREE_THRESHOLD ≤ custom_words.length then
    correct_word_bktree custom_words (custom_words.map strToLower)
      (bktree_of (custom_words.map strToLower)) (custom_words.length + 1) t
  else correct_word_bucketing custom_words
    (buckets_of (custom_words.map strToLower)) t

/-- The word/value pairs of the `match` in `word_to_number`, in source
order. -/
def word_table : List (RStr × Nat) :=
  [("zero".toList, 0), ("oh".toList, 0), ("one".toList, 1), ("two".toList, 2),
   ("three".toList, 3), ("four".toList, 4), ("five".toList, 5), ("six".toList, 6),
   ("seven".toList, 7), ("eight".toList, 8), ("nine".toList, 9), ("ten".toList, 10),
   ("eleven".toList, 11), ("twelve".toList, 12), ("thirteen".toList, 13),
   ("fourteen".toList, 14), ("fifteen".toList, 15), ("sixteen".toList, 16),
   ("seventeen".toList, 17), ("eighteen".toList, 18), ("nineteen".toList, 19),
   ("twenty".toList, 20), ("thirty".toList, 30), ("forty".toList, 40),
   ("fifty".toList, 50), ("sixty".toList, 60), ("seventy".toList, 70),
   ("eighty".toList, 80), ("ninety".toList, 90)]

/-- Match arm of `word_to_number` on the lowered word: the Rust `match`
over distinct string literals, as a first-match lookup in the table. -/
def word_to_number_core (wl : RStr) : Option Nat :=
  (word_table.find? (fun p => p.1 = wl)).map (fun p => p.2)

/-- Model of `word_to_number`: the closed word set 0..19, 20, 30, ..., 90. -/
def word_to_number (word : RStr) : Option Nat := word_to_number_core (strToLower word)

/-- Splitting loop for `phrase.split([' ', '-'])`: every separator cuts,
empty pieces are kept, any string yields at least one piece. -/
def splitAnyAux (isSep : Char → Bool) : RStr → RStr → List RStr
  | [], acc => [acc.reverse]
  | c :: cs, acc =>
    if isSep c then acc.reverse :: splitAnyAux isSep cs []
    else splitAnyAux isSep cs (c :: acc)

def split_space_hyphen (s : RStr) : List RStr :=
  splitAnyAux (fun c => c = ' ' ∨ c = '-') s []

/-- Model of `parse_tens_and_ones`. -/
def parse_tens_and_ones (phrase : RStr) : Option Nat :=
  let parts := split_space_hyphen phrase
  if parts.length = 1 then word_to_number (parts.getD 0 [])
  else if parts.length = 2 then
    match word_to_number (parts.getD 0 []), word_to_number (parts.getD 1 []) with
    | some tens, some ones =>
      if (20 ≤ tens ∧ tens ≤ 90) ∧ ones ≤ 9 then some (tens + ones) else none
    | _, _ => none
  else none

/-! Regular-expression fragment used by `normalize_years`: case-insensitive
literals, one-or-more character classes, sequencing, alternation, optional
groups, capture groups and word boundaries, with the leftmost-first,
greedy, backtracking semantics of the `regex` crate on these patterns. -/

/-- Word character of `\w` and of the `\b` boundary test (ASCII fragment). -/
def isWordChar (c : Char) : Bool := c.isAlphanum ∨ c = '_'

inductive RE : Type where
  | lit : RStr → RE
  | clsPlus : (Char → Bool) → RE
  | seq : RE → RE → RE
  | alt : RE → RE → RE
  | opt : RE → RE
  | grp : Nat → RE → RE
  | wb : RE

/-- Case-insensitive character comparison for `(?i)` literals. -/
def ciEq (a b : Char) : Bool := a.toLower = b.toLower

/-- Matching a case-insensitive literal at a position. -/
def litAt (s : RStr) : Nat → RStr → Option Nat
  | i, [] => some i
  | i, c :: cs =>
    match s.get? i with
    | some d => if ciEq d c then litAt s (i + 1) cs else none
    | none => none

def runLenAux (p : Char → Bool) : RStr → Nat
  | [] => 0
  | c :: cs => if p c then runLenAux p cs + 1 else 0

/-- Length of the maximal run of `p`-characters starting at `i`. -/
def runLen (p : Char → Bool) (s : RStr) (i : Nat) : Nat := runLenAux p (s.drop i)

/-- Word-boundary test of `\b` at a position. -/
def boundaryAt (s : RStr) (i : Nat) : Bool :=
  let before := match i with
    | 0 => false
    | j + 1 => ((s.get? j).map isWordChar).getD false
  let after := ((s.get? i).map isWordChar).getD false
  before != after

/-- Captured groups: (group index, start, end), latest first. -/
abbrev Caps : Type := List (Nat × Nat × Nat)

/-- All ways a regex matches starting at a position, end positions paired
with captures, in backtracking preference order (greedy quantifiers,
left alternative first). -/
def reMatch (s : RStr) : RE → Nat → Caps → List (Nat × Caps)
  | .lit w, i, caps =>
    match litAt s i w with
    | some j => [(j, caps)]
    | none => []
  | .clsPlus p, i, caps =>
    let m := runLen p s i
    (List.range m).map (fun k => (i + m - k, caps))
  | .seq r1 r2, i, caps =>
    (reMatch s r1 i caps).flatMap (fun ec => reMatch s r2 ec.1 ec.2)
  | .alt r1 r2, i, caps => reMatch s r1 i caps ++ reMatch s r2 i caps
  | .opt r, i, caps => reMatch s r i caps ++ [(i, caps)]
  | .grp n r, i, caps =>
    (reMatch s r i caps).map (fun ec => (ec.1, (n, i, ec.1) :: ec.2))
  | .wb, i, caps => if boundaryAt s i then [(i, caps)] else []

/-- Preferred match at a position. -/
def matchAt (s : RStr) (r : RE) (i : Nat) : Option (Nat × Caps) :=
  (reMatch s r i []).head?

/-- Leftmost match at or after a position; the fuel only serves
structural recursion and the caller supplies enough to reach the end of
the string. -/
def searchFrom (s : RStr) (r : RE) : Nat → Nat → Option (Nat × Nat × Caps)
  | _, 0 => none
  | i, fuel + 1 =>
    if i ≤ s.length then
      match matchAt s r i with
      | some ec => some (i, ec.1, ec.2)
      | none => searchFrom s r (i + 1) fuel
    else none

/-- Successive non-overlapping matches, as `captures_iter` yields them. -/
def findAllFrom (s : RStr) (r : RE) : Nat → Nat → List (Nat × Nat × Caps)
  | _, 0 => []
  | i, fuel + 1 =>
    match searchFrom s r i (s.length + 1 - i) with
    | none => []
    | some m => m :: findAllFrom s r (if m.1 < m.2.1 then m.2.1 else m.2.1 + 1) fuel

def findAll (s : RStr) (r : RE) : List (Nat × Nat × Caps) :=
  findAllFrom s r 0 (s.length + 1)

/-- Text of a captured group. -/
def capStr (s : RStr) (caps : Caps) (n : Nat) : Option RStr :=
  (caps.find? (fun c => c.1 = n)).map (fun c => (s.take c.2.2).drop c.2.1)

/-- Model of `String::replace_range` at character positions (the concrete
inputs below are ASCII, where byte and character offsets agree). -/
def replaceRange (s : RStr) (st en : Nat) (rep : RStr) : RStr :=
  s.take st ++ rep ++ s.drop en

/-- One pattern pass of a normalizer: collect all matches whose converter
succeeds, then splice them in reverse order. -/
def runPattern (pat : RE) (conv : RStr → Caps → Option RStr) (s : RStr) : RStr :=
  let reps := (findAll s pat).filterMap
    (fun m => (conv s m.2.2).map (fun rep => (m.1, m.2.1, rep)))
  reps.reverse.foldl
    (fun acc r =>
      match r with
      | (st, en, rep) => replaceRange acc st en rep) s

/-- Model of Rust `str::trim` (whitespace at both ends). -/
def rustTrim (s : RStr) : RStr :=
  (((s.dropWhile (fun c => rust_is_whitespace c)).reverse.dropWhile
    (fun c => rust_is_whitespace c)).reverse)

def natToStr (n : Nat) : RStr := (Nat.repr n).toList

/-- Two-digit zero-padded rendering, the `{:02}` format. -/
def pad2 (n : Nat) : RStr := if n < 10 then '0' :: natToStr n else natToStr n

def wcP (c : Char) : Bool := isWordChar c
def sdP (c : Char) : Bool := rust_is_whitespace c ∨ c = '-'
def spP (c : Char) : Bool := rust_is_whitespace c

/-- Pattern `\b(twenty)[\s-]+(twenty)[\s-]+(\w+)\b`. -/
def yearPat1 : RE :=
  .seq .wb (.seq (.grp 1 (.lit ("twenty".toList)))
    (.seq (.clsPlus sdP) (.seq (.grp 2 (.lit ("twenty".toList)))
      (.seq (.clsPlus sdP) (.seq (.grp 3 (.clsPlus wcP)) .wb)))))

def yearConv1 (s : RStr) (caps : Caps) : Option RStr := do
  let last_digit ← capStr s caps 3
  let ones ← word_to_number last_digit
  if ones ≤ 9 then some (('2' :: '0' :: []) ++ natToStr (20 + ones)) else none

/-- Pattern `\b(two\s+thousand)(?:\s+and)?\s+(\w+[\s-]+\w+)\b`. -/
def yearPat2 : RE :=
  .seq .wb (.seq (.grp 1 (.seq (.lit ("two".toList))
      (.seq (.clsPlus spP) (.lit ("thousand".toList)))))
    (.seq (.opt (.seq (.clsPlus spP) (.lit ("and".toList))))
      (.seq (.clsPlus spP)
        (.seq (.grp 2 (.seq (.clsPlus wcP) (.seq (.clsPlus sdP) (.clsPlus wcP)))) .wb))))

def yearConv2 (s : RStr) (caps : Caps) : Option RStr := do
  let year_part ← capStr s caps 2
  let last_two ← parse_tens_and_ones (rustTrim year_part)
  if last_two ≤ 99 then some (('2' :: '0' :: []) ++ pad2 last_two) else none

/-- Pattern `\b(two\s+thousand)(?:\s+and)?\s+(\w+)\b`. -/
def yearPat3 : RE :=
  .seq .wb (.seq (.grp 1 (.seq (.lit ("two".toList))
      (.seq (.clsPlus spP) (.lit ("thousand".toList)))))
    (.seq (.opt (.seq (.clsPlus spP) (.lit ("and".toList))))
      (.seq (.clsPlus spP) (.seq (.grp 2 (.clsPlus wcP)) .wb))))

def yearConv3 (s : RStr) (caps : Caps) : Option RStr := do
  let year_part ← capStr s caps 2
  let last_two ← word_to_number (rustTrim year_part)
  if last_two ≤ 99 then some (('2' :: '0' :: []) ++ pad2 last_two) else none

/-- Pattern `\b(nineteen)[\s-]+(\w+[\s-]+\w+|\w+)\b`. -/
def yearPat4 : RE :=
  .seq .wb (.seq (.grp 1 (.lit ("nineteen".toList)))
    (.seq (.clsPlus sdP)
      (.seq (.grp 2 (.alt (.seq (.clsPlus wcP) (.seq (.clsPlus sdP) (.clsPlus wcP)))
        (.clsPlus wcP))) .wb)))

/-- Shared converter body of the nineteen/eighteen patterns. -/
def centuryConv (prefix2 : RStr) (s : RStr) (caps : Caps) : Option RStr := do
  let second_part ← capStr s caps 2
  let last_two ←
    if second_part.any (fun c => c = ' ') ∨ second_part.any (fun c => c = '-') then
      parse_tens_and_ones second_part
    else word_to_number second_part
  if last_two ≤ 99 then some (prefix2 ++ pad2 last_two) else none

def yearConv4 (s : RStr) (caps : Caps) : Option RStr :=
  centuryConv ('1' :: '9' :: []) s caps

/-- Pattern `\b(eighteen)[\s-]+(\w+[\s-]+\w+|\w+)\b`. -/
def yearPat5 : RE :=
  .seq .wb (.seq (.grp 1 (.lit ("eighteen".toList)))
    (.seq (.clsPlus sdP)
      (.seq (.grp 2 (.alt (.seq (.clsPlus wcP) (.seq (.clsPlus sdP) (.clsPlus wcP)))
        (.clsPlus wcP))) .wb)))

def yearConv5 (s : RStr) (caps : Caps) : Option RStr :=
  centuryConv ('1' :: '8' :: []) s caps

/-- Model of `normalize_years`: the five pattern/converter passes in
source order, each operating on the output of the previous one. -/
def normalize_years (text : RStr) : RStr :=
  runPattern yearPat5 yearConv5
    (runPattern yearPat4 yearConv4
      (runPattern yearPat3 yearConv3
        (runPattern yearPat2 yearConv2
          (runPattern yearPat1 yearConv1 text))))

/-- Case-adjustment rule in the words of the specification: an entirely
uppercase token uppercases the whole replacement, a token whose first
character is uppercase uppercases only the first character of the
replacement, and any other token keeps the replacement as authored. -/
def case_adjust_spec (original replacement : RStr) : RStr :=
  if ∀ c ∈ original, rust_is_uppercase c = true then strToUpper replacement
  else if (match original with
      | [] => false
      | c :: _ => rust_is_uppercase c) = true then
    (replacement.take 1).map Char.toUpper ++ replacement.drop 1
  else replacement

/-- A running best that is either absent or has a strictly positive
score; the exact-match marker score 0 never arises from the non-exact
acceptance path. -/
def OkBest (best : Option (RStr × ℚ)) : Prop :=
  ∀ p ∈ best, 0 < p.2

/-- A candidate word that both scan loops are bound to skip: its distance
is nonzero and either the raw score exceeds the threshold, the combined
score fails the acceptance bound, or the running best already dominates
it.  Once a word has been processed without an exact stop it stays
blocked. -/
def blockedCand (cw : RStr) (t : ℚ) (best : Option (RStr × ℚ)) (w : RStr) : Prop :=
  levenshtein cw w ≠ 0 ∧
    (t < scoreOfDist cw w (levenshtein cw w) ∨
     ¬ combinedOf cw w (scoreOfDist cw w (levenshtein cw w)) < t ∨
     ∃ x s, best = some (x, s) ∧ s ≤ combinedOf cw w (scoreOfDist cw w (levenshtein cw w)))

/-- Each candidate either repeats an already seen word or carries exactly
the index that `position` resolves its word to (the first occurrence in
the lowercase list). -/
def NoDupPos (wl : List RStr) : List (Nat × RStr) → List RStr → Prop
  | [], _ => True
  | (i, w) :: rest, seen =>
    (w ∈ seen ∨ position wl w = some i) ∧ NoDupPos wl rest (w :: seen)

/-- Valid index/word pairs over the lowercase list. -/
def ValidCands (wl : List RStr) (cands : List (Nat × RStr)) : Prop :=
  ∀ p ∈ cands, p.1 < wl.length ∧ wl.getD p.1 [] = p.2

/-- Membership of a word in a BK-tree node along correctly labelled
edges (each edge to a child carrying the word is labelled with the
distance of the word to the parent key, which is how `BKNode.add` routes
insertions), together with a depth bound used to discharge the traversal
fuel. -/
inductive MemD : BKNode → RStr → Nat → Prop where
  | here : ∀ (key : RStr) (children : List (Nat × BKNode)) (k : Nat),
      MemD (.mk key children) key (k + 1)
  | there : ∀ (key : RStr) (children : List (Nat × BKNode)) (w : RStr) (c : BKNode)
      (k : Nat), (levenshtein w key, c) ∈ children → MemD c w k →
      MemD (.mk key children) w (k + 1)

/-- Upper bound on the depth of a BK-tree node. -/
inductive DepthLE : BKNode → Nat → Prop where
  | mk : ∀ (key : RStr) (children : List (Nat × BKNode)) (d : Nat),
      (∀ p ∈ children, DepthLE p.2 d) → DepthLE (.mk key children) (d + 1)

/-! Theorems about the claims. -/

/-- C4: for every text and every threshold, applying the Correction
Engine with an empty vocabulary is the identity on the text, character
for character, whitespace included. -/
theorem c4_empty_vocab_identity (text : RStr) (t : ℚ) :
    apply_custom_words text [] t = some text := rfl

/-- C8: the year normalizer maps the three specification examples
exactly. -/
theorem c8_normalize_years_examples :
    normalize_years ("twenty twenty-five".toList) = ("2025".toList) ∧
    normalize_years ("two thousand and twenty-five".toList) = ("2025".toList) ∧
    normalize_years ("nineteen ninety-nine".toList) = ("1999".toList) :=
  ⟨by decide, by decide, by decide⟩

/-- C2 is a code bug: on the token `«hello»` with vocabulary `hello` the
replacement succeeds, and `extract_punctuation` then slices the string
at byte index 1, inside the two-byte character `«` — a panic, modelled
by `none`.  The claim (and the spec) say the engine never raises. -/
theorem c2_panic_on_multibyte_punctuation :
    extract_punctuation ("«hello»".toList) = none ∧
    apply_custom_words ("«hello»".toList) ["hello".toList] (mkRat 1 2) = none :=
  ⟨by decide, by decide⟩

/-- C1 fails: on text `ab`, vocabulary `abxxxxx`, threshold 9/10, the
Length-Bucket strategy substitutes (distance 5, score 5/7 accepted) but
the Metric-Tree strategy retrieves nothing, because its bound
`ceil(2 * 9/10 * 1.5) = 3` is below the distance 5; the outputs differ. -/
theorem c1_counterexample :
    apply_custom_words_bucketing ("ab".toList) ["abxxxxx".toList] (mkRat 9 10)
      = some ("abxxxxx".toList) ∧
    apply_custom_words_bktree ("ab".toList) ["abxxxxx".toList] (mkRat 9 10)
      = some ("ab".toList) ∧
    apply_custom_words_bucketing ("ab".toList) ["abxxxxx".toList] (mkRat 9 10)
      ≠ apply_custom_words_bktree ("ab".toList) ["abxxxxx".toList] (mkRat 9 10) :=
  ⟨by decide, by decide, by decide⟩

/-- C3 fails: on text `tad`, vocabulary `toad`, threshold 1/5, the
candidate has raw normalized score 1/4 strictly above the threshold, is
phonetically equal (both Soundex T300), and its discounted score 3/40 is
below the threshold — yet the engine leaves the token unchanged, because
the raw-threshold check precedes the phonetic discount. -/
theorem c3_counterexample :
    scoreOfDist ("tad".toList) ("toad".toList)
      (levenshtein ("tad".toList) ("toad".toList)) = mkRat 1 4 ∧
    mkRat 1 5 < mkRat 1 4 ∧
    soundexEq ("tad".toList) ("toad".toList) = true ∧
    combinedOf ("tad".toList) ("toad".toList) (mkRat 1 4) < mkRat 1 5 ∧
    apply_custom_words ("tad".toList) ["toad".toList] (mkRat 1 5)
      = some ("tad".toList) := by
  refine ⟨by decide, by decide, by decide, by decide, by decide⟩

/-- C6 fails as stated: with an empty vocabulary the engine returns the
text verbatim, so the double space of `a  b` is preserved and the output
is not the single-space join of the tokens. -/
theorem c6_counterexample :
    apply_custom_words ("a  b".toList) [] (mkRat 1 2) = some ("a  b".toList) ∧
    ("a  b".toList) ≠ joinSpace (split_whitespace ("a  b".toList)) :=
  ⟨by decide, by decide⟩

/-- C7 fails as stated: in the vocabulary `[Foo, FOO]` the token `foo`
exactly matches the lowercase form of entry 1, yet the engine replaces
it with entry 0 (`Foo`), the first entry with that lowercase form. -/
theorem c7_counterexample :
    strToLower (trimNonAlpha ("foo".toList)) = strToLower ("FOO".toList) ∧
    apply_custom_words ("foo".toList) ["Foo".toList, "FOO".toList] (mkRat 1 2)
      = some ("Foo".toList) ∧
    ("Foo".toList) ≠ ("FOO".toList) :=
  ⟨by decide, by decide, by decide⟩

/-- Every value of `word_to_number` lying in [20, 90] is a multiple of
ten (the word set has no other values in that range). -/
theorem word_to_number_tens (w : RStr) (a : Nat) (h : word_to_number w = some a)
    (h20 : 20 ≤ a) (h90 : a ≤ 90) : a % 10 = 0 := by
  unfold word_to_number word_to_number_core at h
  rcases ho : List.find? (fun p => p.1 = strToLower w) word_table with _ | p
  · rw [ho] at h
    cases h
  · rw [ho] at h
    have hmem := List.mem_of_find?_eq_some ho
    obtain rfl : p.2 = a := by simpa using h
    have htab : ∀ q ∈ word_table, 20 ≤ q.2 → q.2 ≤ 90 → q.2 % 10 = 0 := by decide
    exact htab p hmem h20 h90

/-- C9: `parse_tens_and_ones` splits on space or hyphen; one token gives
`word_to_number` of it, two tokens give the sum exactly when the first
resolves to a multiple of ten in [20, 90] and the second to [0, 9], and
three or more tokens give no match. -/
theorem c9_parse_tens_and_ones (phrase : RStr) :
    ((split_space_hyphen phrase).length = 1 →
      parse_tens_and_ones phrase
        = word_to_number ((split_space_hyphen phrase).getD 0 [])) ∧
    ((split_space_hyphen phrase).length = 2 →
      ∀ n, parse_tens_and_ones phrase = some n ↔
        ∃ a b, word_to_number ((split_space_hyphen phrase).getD 0 []) = some a ∧
          word_to_number ((split_space_hyphen phrase).getD 1 []) = some b ∧
          20 ≤ a ∧ a ≤ 90 ∧ a % 10 = 0 ∧ b ≤ 9 ∧ n = a + b) ∧
    (3 ≤ (split_space_hyphen phrase).length → parse_tens_and_ones phrase = none) := by
  refine ⟨?_, ?_, ?_⟩
  · intro h1
    simp [parse_tens_and_ones, h1]
  · intro h2 n
    obtain ⟨p0, p1, hs⟩ : ∃ p0 p1, split_space_hyphen phrase = [p0, p1] :=
      List.length_eq_two.mp h2
    have hparse : parse_tens_and_ones phrase =
        match word_to_number p0, word_to_number p1 with
        | some tens, some ones =>
          if (20 ≤ tens ∧ tens ≤ 90) ∧ ones ≤ 9 then some (tens + ones) else none
        | _, _ => none := by
      simp [parse_tens_and_ones, hs]
    rw [hs]
    simp only [List.getD_cons_zero, List.getD_cons_succ]
    constructor
    · intro h
      rw [hparse] at h
      rcases hw0 : word_to_number p0 with _ | a <;> rw [hw0] at h
      · cases h
      rcases hw1 : word_to_number p1 with _ | b <;> rw [hw1] at h
      · cases h
      simp only at h
      split_ifs at h with hc
      cases h
      exact ⟨a, b, rfl, rfl, hc.1.1, hc.1.2,
        word_to_number_tens _ _ hw0 hc.1.1 hc.1.2, hc.2, rfl⟩
    · rintro ⟨a, b, hw0, hw1, ha20, ha90, hmod, hb, rfl⟩
      rw [hparse, hw0, hw1]
      simp only
      rw [if_pos ⟨⟨ha20, ha90⟩, hb⟩]
  · intro h3
    have h1 : ¬ (split_space_hyphen phrase).length = 1 := by omega
    have h2 : ¬ (split_space_hyphen phrase).length = 2 := by omega
    simp [parse_tens_and_ones, h1, h2]

/-- Witness for C9: the phrase `twenty-five` splits in two tokens and the
characterization instantiates to the value 25. -/
theorem c9_witness :
    (split_space_hyphen ("twenty-five".toList)).length = 2 ∧
    (parse_tens_and_ones ("twenty-five".toList) = some 25 ↔
      ∃ a b, word_to_number ((split_space_hyphen ("twenty-five".toList)).getD 0 [])
          = some a ∧
        word_to_number ((split_space_hyphen ("twenty-five".toList)).getD 1 [])
          = some b ∧
        20 ≤ a ∧ a ≤ 90 ∧ a % 10 = 0 ∧ b ≤ 9 ∧ 25 = a + b) :=
  ⟨by decide, (c9_parse_tens_and_ones ("twenty-five".toList)).2.1 (by decide) 25⟩

/-- C5: the implementation's case reconstruction agrees with the
specification rule on every token (punctuated ones included), and a
replaced token is rebuilt as prefix, case-adjusted replacement, suffix. -/
theorem c5_case_adjustment :
    (∀ original replacement : RStr,
      preserve_case_pattern original replacement
        = case_adjust_spec original replacement) ∧
    (∀ (ow wl : List RStr) (t : ℚ) (fc : RStr → List (Nat × RStr)) (word repl : RStr),
      ¬ (strToLower (trimNonAlpha word) = [] ∨
          50 < utf8Len (strToLower (trimNonAlpha word))) →
      findBest ow wl (strToLower (trimNonAlpha word)) t
        (fc (strToLower (trimNonAlpha word))) none = some repl →
      correct_word_impl ow wl t fc word
        = (extract_punctuation word).map
            (fun ps => ps.1 ++ case_adjust_spec word repl ++ ps.2)) := by
  have hmain : ∀ original replacement : RStr,
      preserve_case_pattern original replacement
        = case_adjust_spec original replacement := by
    intro original replacement
    unfold preserve_case_pattern case_adjust_spec
    have hall : (original.all (fun c => rust_is_uppercase c) = true)
        ↔ (∀ c ∈ original, rust_is_uppercase c = true) := by
      simp [List.all_eq_true]
    by_cases h1 : ∀ c ∈ original, rust_is_uppercase c = true
    · rw [if_pos (hall.mpr h1), if_pos h1]
    · rw [if_neg (fun hb => h1 (hall.mp hb)), if_neg h1]
      cases original with
      | nil => simp
      | cons c cs =>
        by_cases h2 : rust_is_uppercase c = true
        · cases replacement with
          | nil => simp [h2]
          | cons r rs => simp [h2]
        · simp [h2]
  refine ⟨hmain, ?_⟩
  intro ow wl t fc word repl hguard hfind
  unfold correct_word_impl
  rw [if_neg hguard, hfind]
  cases hep : extract_punctuation word with
  | none => rfl
  | some ps => simp [hmain]

/-- Witness for C5: the all-caps-with-punctuation token `HELLO!` is
replaced through the vocabulary pair (original `world`, lowercase
`hello`) and rebuilt as `World!`: the trailing `!` is not an uppercase
character, so only the first character of the replacement is
uppercased. -/
theorem c5_witness :
    correct_word_impl ["world".toList] ["hello".toList] (mkRat 1 2)
        (fun _ => [(0, ("hello".toList))]) ("HELLO!".toList)
      = (extract_punctuation ("HELLO!".toList)).map
          (fun ps => ps.1 ++ case_adjust_spec ("HELLO!".toList) ("world".toList) ++ ps.2) ∧
    correct_word_impl ["world".toList] ["hello".toList] (mkRat 1 2)
        (fun _ => [(0, ("hello".toList))]) ("HELLO!".toList)
      = some ("World!".toList) :=
  ⟨c5_case_adjustment.2 ["world".toList] ["hello".toList] (mkRat 1 2)
      (fun _ => [(0, ("hello".toList))]) ("HELLO!".toList) ("world".toList)
      (by decide) (by decide),
    by decide⟩

/-- Every replacement selected by the candidate loop comes from a listed
candidate that was resolved through `position` and whose distance is 0 or
whose raw normalized score is at most the threshold (generalized over the
running best, which carries the same guarantee shape). -/
theorem findBest_accept (ow wl : List RStr) (cw : RStr) (t : ℚ) :
    ∀ (cands : List (Nat × RStr)) (best : Option (RStr × ℚ)) (r : RStr),
    findBest ow wl cw t cands best = some r →
    (∃ p, best = some p ∧ r = p.1) ∨
    ∃ dist cand i, (dist, cand) ∈ cands ∧ position wl cand = some i ∧
      r = ow.getD i [] ∧ (dist = 0 ∨ scoreOfDist cw cand dist ≤ t) := by
  intro cands
  induction cands with
  | nil =>
    intro best r h
    cases best with
    | none => cases h
    | some p =>
      simp only [findBest, Option.map_some', Option.some.injEq] at h
      exact Or.inl ⟨p, rfl, h.symm⟩
  | cons hd tl ih =>
    intro best r h
    obtain ⟨dist, cand⟩ := hd
    simp only [findBest] at h
    cases hpos : position wl cand with
    | none =>
      simp only [hpos] at h
      rcases ih best r h with hb | ⟨d, c, i, hm, hp, hr, hs⟩
      · exact Or.inl hb
      · exact Or.inr ⟨d, c, i, List.mem_cons_of_mem _ hm, hp, hr, hs⟩
    | some i =>
      simp only [hpos] at h
      by_cases h0 : dist = 0
      · rw [if_pos h0] at h
        exact Or.inr ⟨dist, cand, i, List.mem_cons_self _ _, hpos,
          (Option.some.inj h).symm, Or.inl h0⟩
      · rw [if_neg h0] at h
        by_cases hskip : t < scoreOfDist cw cand dist
        · rw [if_pos hskip] at h
          rcases ih best r h with hb | ⟨d, c, i2, hm, hp, hr, hs⟩
          · exact Or.inl hb
          · exact Or.inr ⟨d, c, i2, List.mem_cons_of_mem _ hm, hp, hr, hs⟩
        · rw [if_neg hskip] at h
          by_cases hacc : combinedOf cw cand (scoreOfDist cw cand dist) < t ∧
              beatsBest (combinedOf cw cand (scoreOfDist cw cand dist)) best
          · rw [if_pos hacc] at h
            rcases ih _ r h with ⟨p, hp, hr⟩ | ⟨d, c, i2, hm, hp, hr, hs⟩
            · cases hp
              exact Or.inr ⟨dist, cand, i, List.mem_cons_self _ _, hpos, hr,
                Or.inr (not_lt.mp hskip)⟩
            · exact Or.inr ⟨d, c, i2, List.mem_cons_of_mem _ hm, hp, hr, hs⟩
          · rw [if_neg hacc] at h
            rcases ih best r h with hb | ⟨d, c, i2, hm, hp, hr, hs⟩
            · exact Or.inl hb
            · exact Or.inr ⟨d, c, i2, List.mem_cons_of_mem _ hm, hp, hr, hs⟩

/-- The candidate loop of the standalone `apply_custom_words_bktree`
computes the same function as the loop of `apply_corrections_impl` (the
two Rust loop bodies coincide). -/
theorem bktree_scan_eq_findBest (ow wl : List RStr) (cw : RStr) (t : ℚ) :
    ∀ (cands : List (Nat × RStr)) (best : Option (RStr × ℚ)),
    bktree_scan ow wl cw t cands best = findBest ow wl cw t cands best := by
  intro cands
  induction cands with
  | nil => intro best; rfl
  | cons hd tl ih =>
    intro best
    obtain ⟨dist, cand⟩ := hd
    simp only [bktree_scan, findBest]
    rcases hpos : position wl cand with _ | i
    · dsimp only
      exact ih best
    · dsimp only
      by_cases h0 : dist = 0
      · rw [if_pos h0, if_pos h0]
      · rw [if_neg h0, if_neg h0]
        split_ifs <;> first | rfl | apply ih

/-- C3 amended: a candidate whose raw normalized score strictly exceeds
the threshold is never substituted — the raw-score skip precedes the
phonetic discount, so every replacement delivered by either candidate
loop (`apply_corrections_impl` or `apply_custom_words_bktree`) comes from
a candidate with distance 0 or raw score at most the threshold. -/
theorem c3_amended_no_phonetic_rescue
    (ow wl : List RStr) (cw : RStr) (t : ℚ) (cands : List (Nat × RStr)) (r : RStr) :
    (findBest ow wl cw t cands none = some r →
      ∃ dist cand i, (dist, cand) ∈ cands ∧ position wl cand = some i ∧
        r = ow.getD i [] ∧ (dist = 0 ∨ scoreOfDist cw cand dist ≤ t)) ∧
    (bktree_scan ow wl cw t cands none = some r →
      ∃ dist cand i, (dist, cand) ∈ cands ∧ position wl cand = some i ∧
        r = ow.getD i [] ∧ (dist = 0 ∨ scoreOfDist cw cand dist ≤ t)) := by
  constructor
  · intro h
    rcases findBest_accept ow wl cw t cands none r h with ⟨p, hp, _⟩ | hc
    · cases hp
    · exact hc
  · intro h
    rw [bktree_scan_eq_findBest] at h
    rcases findBest_accept ow wl cw t cands none r h with ⟨p, hp, _⟩ | hc
    · cases hp
    · exact hc

/-- Witness for the amended C3: the fuzzy token `helo` against the
vocabulary entry `hello` is accepted, and the characterization yields
its candidate with raw score below the threshold. -/
theorem c3_amended_witness :
    findBest ["hello".toList] ["hello".toList] ("helo".toList) (mkRat 1 2)
        [(1, "hello".toList)] none = some ("hello".toList) ∧
    (∃ dist cand i, (dist, cand) ∈ [(1, ("hello".toList))] ∧
      position ["hello".toList] cand = some i ∧
      ("hello".toList) = (["hello".toList]).getD i [] ∧
      (dist = 0 ∨ scoreOfDist ("helo".toList) cand dist ≤ mkRat 1 2)) :=
  ⟨by decide,
    (c3_amended_no_phonetic_rescue ["hello".toList] ["hello".toList] ("helo".toList)
      (mkRat 1 2) [(1, "hello".toList)] ("hello".toList)).1 (by decide)⟩

/-- In the `Option` monad, `mapM` preserves the length. -/
theorem mapM_option_length {α β : Type} (f : α → Option β) :
    ∀ (l : List α) (l2 : List β), l.mapM f = some l2 → l2.length = l.length := by
  intro l
  induction l with
  | nil =>
    intro l2 h
    simp only [List.mapM_nil, pure, Option.some.injEq] at h
    simp [← h]
  | cons a l ih =>
    intro l2 h
    simp only [List.mapM_cons] at h
    rcases hfa : f a with _ | b <;> rw [hfa] at h
    · cases h
    rcases hml : l.mapM f with _ | bs <;> rw [hml] at h
    · cases h
    have hcons : b :: bs = l2 := by simpa using h
    rw [← hcons]
    simp [ih bs hml]

/-- In the `Option` monad, `mapM` maps each element pointwise: the i-th
output is the image of the i-th input. -/
theorem mapM_option_getD {α β : Type} (f : α → Option β) (d : α) (d2 : β) :
    ∀ (l : List α) (l2 : List β), l.mapM f = some l2 →
      ∀ i, i < l.length → f (l.getD i d) = some (l2.getD i d2) := by
  intro l
  induction l with
  | nil =>
    intro l2 h i hi
    exact absurd hi (Nat.not_lt_zero i)
  | cons a l ih =>
    intro l2 h i hi
    simp only [List.mapM_cons] at h
    rcases hfa : f a with _ | b <;> rw [hfa] at h
    · cases h
    rcases hml : l.mapM f with _ | bs <;> rw [hml] at h
    · cases h
    have hcons : b :: bs = l2 := by simpa using h
    rw [← hcons]
    cases i with
    | zero => simpa using hfa
    | succ n =>
      simp only [List.getD_cons_succ]
      exact ih bs hml n (by simpa using hi)

/-- C6 amended: with a NONEMPTY vocabulary, every non-panicking output of
the Correction Engine is the single-space join of the list obtained by
correcting each whitespace-separated input token with the per-token
corrector — one output token per input token, tied pointwise (the
empty-vocabulary short-circuit, by contrast, returns the text
verbatim). -/
theorem c6_amended_single_space_join (text : RStr) (v : List RStr) (t : ℚ)
    (hv : v ≠ []) (out : RStr) (h : apply_custom_words text v t = some out) :
    ∃ toks : List RStr,
      (split_whitespace text).mapM (correct_word_dispatch v t) = some toks ∧
      out = joinSpace toks ∧
      toks.length = (split_whitespace text).length ∧
      (∀ i, i < (split_whitespace text).length →
        correct_word_dispatch v t ((split_whitespace text).getD i [])
          = some (toks.getD i [])) := by
  have hne : v.isEmpty = false := by
    cases v with
    | nil => exact absurd rfl hv
    | cons a l => rfl
  simp only [apply_custom_words, hne, Bool.false_eq_true, if_false] at h
  by_cases hlen : BKTREE_THRESHOLD ≤ v.length
  · rw [if_pos hlen] at h
    simp only [apply_custom_words_bktree] at h
    rcases hm : (split_whitespace text).mapM
        (correct_word_bktree v (v.map strToLower) (bktree_of (v.map strToLower))
          (v.length + 1) t) with _ | toks <;> rw [hm] at h
    · cases h
    · have hdisp : correct_word_dispatch v t
          = correct_word_bktree v (v.map strToLower) (bktree_of (v.map strToLower))
            (v.length + 1) t := by
        unfold correct_word_dispatch
        rw [if_pos hlen]
      rw [hdisp]
      exact ⟨toks, hm, (Option.some.inj h).symm, mapM_option_length _ _ _ hm,
        fun i hi => mapM_option_getD _ [] [] _ _ hm i hi⟩
  · rw [if_neg hlen] at h
    simp only [apply_custom_words_bucketing] at h
    rcases hm : (split_whitespace text).mapM
        (correct_word_bucketing v (buckets_of (v.map strToLower)) t) with _ | toks <;>
      rw [hm] at h
    · cases h
    · have hdisp : correct_word_dispatch v t
          = correct_word_bucketing v (buckets_of (v.map strToLower)) t := by
        unfold correct_word_dispatch
        rw [if_neg hlen]
      rw [hdisp]
      exact ⟨toks, hm, (Option.some.inj h).symm, mapM_option_length _ _ _ hm,
        fun i hi => mapM_option_getD _ [] [] _ _ hm i hi⟩

/-- Witness for the amended C6 at text `x`, vocabulary `[y]`. -/
theorem c6_amended_witness :
    ∃ toks : List RStr,
      (split_whitespace ("x".toList)).mapM
        (correct_word_dispatch ["y".toList] (mkRat 1 2)) = some toks ∧
      ("x".toList) = joinSpace toks ∧
      toks.length = (split_whitespace ("x".toList)).length ∧
      (∀ i, i < (split_whitespace ("x".toList)).length →
        correct_word_dispatch ["y".toList] (mkRat 1 2)
            ((split_whitespace ("x".toList)).getD i [])
          = some (toks.getD i [])) :=
  c6_amended_single_space_join ("x".toList) ["y".toList] (mkRat 1 2)
    (by decide) ("x".toList) (by decide)

theorem ratMul_eq (a b : ℚ) : ratMul a b = a * b := (Rat.mul_eq_mkRat a b).symm

theorem utf8Len_pos (s : RStr) (hs : s ≠ []) : 0 < utf8Len s := by
  cases s with
  | nil => exact absurd rfl hs
  | cons c cs =>
    have hc : 0 < c.utf8Size := Char.utf8Size_pos c
    simp only [utf8Len, List.map_cons, List.sum_cons]
    omega

theorem scoreOfDist_pos (cw cand : RStr) (dist : Nat) (hcw : cw ≠ []) (hd : dist ≠ 0) :
    0 < scoreOfDist cw cand dist := by
  unfold scoreOfDist
  have hml : 0 < max (utf8Len cw) (utf8Len cand) :=
    lt_of_lt_of_le (utf8Len_pos cw hcw) (le_max_left _ _)
  rw [if_pos hml, Rat.mkRat_eq_div]
  apply div_pos
  · exact_mod_cast Nat.pos_of_ne_zero hd
  · exact_mod_cast hml

theorem combinedOf_pos (cw cand : RStr) (score : ℚ) (hs : 0 < score) :
    0 < combinedOf cw cand score := by
  unfold combinedOf
  split_ifs
  · rw [ratMul_eq]
    have h310 : (0 : ℚ) < mkRat 3 10 := by
      rw [Rat.mkRat_eq_div]
      norm_num
    exact mul_pos hs h310
  · exact hs

theorem bucket_scan_classify (ow : List RStr) (cw : RStr) (t : ℚ) (hcw : cw ≠ []) :
    ∀ (cands : List (Nat × RStr)) (best : Option (RStr × ℚ)), OkBest best →
    (∃ x, bucket_scan ow cw t cands best = some (x, 0)) ∨
      OkBest (bucket_scan ow cw t cands best) := by
  intro cands
  induction cands with
  | nil =>
    intro best hb
    exact Or.inr hb
  | cons hd tl ih =>
    intro best hb
    obtain ⟨idx, w⟩ := hd
    simp only [bucket_scan]
    split_ifs with h0 hskip hacc
    · exact Or.inl ⟨_, rfl⟩
    · exact ih best hb
    · refine ih _ ?_
      intro p hp
      simp only [Option.mem_def, Option.some.injEq] at hp
      subst hp
      exact combinedOf_pos _ _ _ (scoreOfDist_pos _ _ _ hcw h0)
    · exact ih best hb

theorem bucket_scan_append (ow : List RStr) (cw : RStr) (t : ℚ) (hcw : cw ≠ []) :
    ∀ (l1 l2 : List (Nat × RStr)) (best : Option (RStr × ℚ)), OkBest best →
    bucket_scan ow cw t (l1 ++ l2) best =
      (match bucket_scan ow cw t l1 best with
       | some (x, s) => if s = 0 then some (x, s) else bucket_scan ow cw t l2 (some (x, s))
       | none => bucket_scan ow cw t l2 none) := by
  intro l1
  induction l1 with
  | nil =>
    intro l2 best hb
    simp only [List.nil_append]
    cases best with
    | none => rfl
    | some p =>
      obtain ⟨x, s⟩ := p
      have hs : 0 < s := hb (x, s) rfl
      simp only [bucket_scan]
      rw [if_neg (ne_of_gt hs)]
  | cons hd tl ih =>
    intro l2 best hb
    obtain ⟨idx, w⟩ := hd
    simp only [List.cons_append, bucket_scan]
    split_ifs with h0 hskip hacc
    · simp
    · exact ih l2 best hb
    · refine ih l2 _ ?_
      intro p hp
      simp only [Option.mem_def, Option.some.injEq] at hp
      subst hp
      exact combinedOf_pos _ _ _ (scoreOfDist_pos _ _ _ hcw h0)
    · exact ih l2 best hb

theorem bucket_scan_window_eq_flat (ow : List RStr) (cw : RStr) (t : ℚ)
    (buckets : Nat → List (Nat × RStr)) (hcw : cw ≠ []) :
    ∀ (lens : List Nat) (best : Option (RStr × ℚ)), OkBest best →
    bucket_scan_window ow cw t buckets lens best
      = bucket_scan ow cw t (lens.flatMap buckets) best := by
  intro lens
  induction lens with
  | nil =>
    intro best hb
    rfl
  | cons len lens ih =>
    intro best hb
    simp only [bucket_scan_window, List.flatMap_cons]
    rw [bucket_scan_append ow cw t hcw _ _ best hb]
    rcases hres : bucket_scan ow cw t (buckets len) best with _ | ⟨x, s⟩
    · exact ih none (fun p hp => by cases hp)
    · by_cases hs0 : s = 0
      · subst hs0
        simp
      · have hObest : OkBest (some (x, s)) := by
          rcases bucket_scan_classify ow cw t hcw (buckets len) best hb with ⟨y, hy⟩ | hok
          · rw [hres] at hy
            exact absurd (congrArg Prod.snd (Option.some.inj hy)) hs0
          · rw [hres] at hok
            exact hok
        simp only [hs0, if_false]
        exact ih (some (x, s)) hObest

theorem position_spec (wl : List RStr) (w : RStr) :
    ∀ j, position wl w = some j → j < wl.length ∧ wl.getD j [] = w ∧
      ∀ k, k < j → wl.getD k [] ≠ w := by
  induction wl with
  | nil =>
    intro j h
    cases h
  | cons a l ih =>
    intro j h
    simp only [position] at h
    split_ifs at h with ha
    · cases h
      exact ⟨by simp, by simpa using ha, fun k hk => by omega⟩
    · rcases hp : position l w with _ | j0 <;> rw [hp] at h
      · cases h
      · simp only [Option.map_some', Option.some.injEq] at h
        subst h
        obtain ⟨h1, h2, h3⟩ := ih j0 hp
        refine ⟨by simpa using Nat.succ_lt_succ h1, by simpa using h2, ?_⟩
        intro k hk
        cases k with
        | zero => simpa using ha
        | succ k0 =>
          have := h3 k0 (by omega)
          simpa using this

theorem position_exists (wl : List RStr) (w : RStr) :
    ∀ i, i < wl.length → wl.getD i [] = w → ∃ j, position wl w = some j ∧ j ≤ i := by
  induction wl with
  | nil =>
    intro i hi
    exact absurd hi (by simp)
  | cons a l ih =>
    intro i hi hget
    by_cases ha : a = w
    · exact ⟨0, by simp [position, ha], Nat.zero_le _⟩
    · cases i with
      | zero => exact absurd (by simpa using hget) ha
      | succ i0 =>
        obtain ⟨j0, hp, hle⟩ := ih i0 (by simpa using hi) (by simpa using hget)
        exact ⟨j0 + 1, by simp [position, ha, hp], by omega⟩

theorem enumFrom_mem_of (l : List RStr) : ∀ (n i : Nat) (w : RStr),
    (i, w) ∈ enumFrom n l → n ≤ i ∧ i - n < l.length ∧ l.getD (i - n) [] = w := by
  induction l with
  | nil =>
    intro n i w h
    cases h
  | cons a l ih =>
    intro n i w h
    simp only [enumFrom, List.mem_cons, Prod.mk.injEq] at h
    rcases h with ⟨rfl, rfl⟩ | h
    · exact ⟨Nat.le_refl _, by simp, by simp⟩
    · obtain ⟨h1, h2, h3⟩ := ih (n + 1) i w h
      have hin : n + 1 ≤ i := h1
      refine ⟨by omega, by simp; omega, ?_⟩
      have : i - n = (i - (n + 1)) + 1 := by omega
      rw [this]
      simpa using h3

theorem mem_enumFrom (l : List RStr) : ∀ (n k : Nat) (w : RStr), k < l.length →
    l.getD k [] = w → (n + k, w) ∈ enumFrom n l := by
  induction l with
  | nil =>
    intro n k w hk
    exact absurd hk (by simp)
  | cons a l ih =>
    intro n k w hk hget
    cases k with
    | zero =>
      simp only [List.getD_cons_zero] at hget
      simp [enumFrom, hget]
    | succ k0 =>
      have := ih (n + 1) k0 w (by simpa using hk) (by simpa using hget)
      have harith : n + (k0 + 1) = (n + 1) + k0 := by omega
      rw [harith]
      simp [enumFrom, this]

theorem enumFrom_ge (l : List RStr) : ∀ (n : Nat) (p : Nat × RStr),
    p ∈ enumFrom n l → n ≤ p.1 := by
  induction l with
  | nil =>
    intro n p h
    cases h
  | cons a l ih =>
    intro n p h
    simp only [enumFrom, List.mem_cons] at h
    rcases h with rfl | h
    · exact Nat.le_refl _
    · have := ih (n + 1) p h
      omega

theorem enumFrom_sorted (l : List RStr) :
    ∀ n, (enumFrom n l).Pairwise (fun p q => p.1 < q.1) := by
  induction l with
  | nil =>
    intro n
    exact List.Pairwise.nil
  | cons a l ih =>
    intro n
    refine List.pairwise_cons.mpr ⟨?_, ih (n + 1)⟩
    intro q hq
    have := enumFrom_ge l (n + 1) q hq
    omega

theorem buckets_valid (wl : List RStr) (len : Nat) :
    ValidCands wl (buckets_of wl len) := by
  intro p hp
  obtain ⟨i, w⟩ := p
  have hmem : (i, w) ∈ enumFrom 0 wl := List.mem_of_mem_filter hp
  obtain ⟨_, h2, h3⟩ := enumFrom_mem_of wl 0 i w hmem
  exact ⟨by simpa using h2, by simpa using h3⟩

theorem buckets_len (wl : List RStr) (len : Nat) :
    ∀ p ∈ buckets_of wl len, utf8Len p.2 = len := by
  intro p hp
  have := List.of_mem_filter hp
  simpa using this

theorem buckets_sorted (wl : List RStr) (len : Nat) :
    (buckets_of wl len).Pairwise (fun p q => p.1 < q.1) :=
  (enumFrom_sorted wl 0).filter _

theorem buckets_complete (wl : List RStr) (len : Nat) (j : Nat) (w : RStr)
    (hj : j < wl.length) (hget : wl.getD j [] = w) (hlen : utf8Len w = len) :
    (j, w) ∈ buckets_of wl len := by
  have hmem : (j, w) ∈ enumFrom 0 wl := by
    have := mem_enumFrom wl 0 j w hj hget
    simpa using this
  exact List.mem_filter.mpr ⟨hmem, by simpa using hlen⟩

theorem NoDupPos_mono (wl : List RStr) :
    ∀ (l : List (Nat × RStr)) (s1 s2 : List RStr), (∀ x ∈ s1, x ∈ s2) →
    NoDupPos wl l s1 → NoDupPos wl l s2 := by
  intro l
  induction l with
  | nil =>
    intro s1 s2 _ _
    trivial
  | cons hd tl ih =>
    intro s1 s2 hsub h
    obtain ⟨i, w⟩ := hd
    obtain ⟨h1, h2⟩ := h
    refine ⟨?_, ih (w :: s1) (w :: s2) ?_ h2⟩
    · rcases h1 with hs | hp
      · exact Or.inl (hsub w hs)
      · exact Or.inr hp
    · intro x hx
      rcases List.mem_cons.mp hx with rfl | hx
      · exact List.mem_cons_self _ _
      · exact List.mem_cons_of_mem _ (hsub x hx)

theorem NoDupPos_append (wl : List RStr) :
    ∀ (l1 l2 : List (Nat × RStr)) (seen : List RStr),
    NoDupPos wl l1 seen → NoDupPos wl l2 (l1.map Prod.snd ++ seen) →
    NoDupPos wl (l1 ++ l2) seen := by
  intro l1
  induction l1 with
  | nil =>
    intro l2 seen _ h2
    simpa using h2
  | cons hd tl ih =>
    intro l2 seen h1 h2
    obtain ⟨i, w⟩ := hd
    obtain ⟨h11, h12⟩ := h1
    refine ⟨h11, ?_⟩
    refine ih l2 (w :: seen) h12 ?_
    refine NoDupPos_mono wl l2 _ _ ?_ h2
    intro x hx
    simp only [List.map_cons, List.cons_append, List.mem_cons, List.mem_append] at hx ⊢
    tauto

theorem NoDupPos_of_sorted_complete (wl : List RStr) :
    ∀ (l : List (Nat × RStr)) (seen : List RStr),
    l.Pairwise (fun p q => p.1 < q.1) →
    ValidCands wl l →
    (∀ (i : Nat) (w : RStr) (j : Nat), (i, w) ∈ l → j < i → wl.getD j [] = w →
      (j, w) ∈ l ∨ w ∈ seen) →
    NoDupPos wl l seen := by
  intro l
  induction l with
  | nil =>
    intro seen _ _ _
    trivial
  | cons hd tl ih =>
    intro seen hsort hvalid hsuf
    obtain ⟨i, w⟩ := hd
    refine ⟨?_, ?_⟩
    · by_cases hseen : w ∈ seen
      · exact Or.inl hseen
      · right
        obtain ⟨hi, hget⟩ := hvalid (i, w) (List.mem_cons_self _ _)
        obtain ⟨j, hp, hle⟩ := position_exists wl w i hi hget
        rcases Nat.lt_or_ge j i with hj | hj
        · obtain ⟨hjlen, hjget, _⟩ := position_spec wl w j hp
          rcases hsuf i w j (List.mem_cons_self _ _) hj hjget with hmem | hs
          · rcases List.mem_cons.mp hmem with heq | htl
            · have : j = i := congrArg Prod.fst heq
              omega
            · have := (List.pairwise_cons.mp hsort).1 (j, w) htl
              simp only at this
              omega
          · exact absurd hs hseen
        · have hji : j = i := by omega
          rw [← hji]
          exact hp
    · refine ih (w :: seen) (List.pairwise_cons.mp hsort).2
        (fun p hp => hvalid p (List.mem_cons_of_mem _ hp)) ?_
      intro i2 w2 j2 hm hj2 hget2
      rcases hsuf i2 w2 j2 (List.mem_cons_of_mem _ hm) hj2 hget2 with hmem | hs
      · rcases List.mem_cons.mp hmem with heq | htl
        · have : w2 = w := congrArg Prod.snd heq
          exact Or.inr (by simp [this])
        · exact Or.inl htl
      · exact Or.inr (List.mem_cons_of_mem _ hs)

theorem flatMap_buckets_NoDupPos (wl : List RStr) :
    ∀ (lens : List Nat) (seen : List RStr),
    NoDupPos wl (lens.flatMap (buckets_of wl)) seen := by
  intro lens
  induction lens with
  | nil =>
    intro seen
    trivial
  | cons len lens ih =>
    intro seen
    simp only [List.flatMap_cons]
    apply NoDupPos_append
    · apply NoDupPos_of_sorted_complete wl _ seen (buckets_sorted wl len)
        (buckets_valid wl len)
      intro i w j hm hj hget
      left
      have hiw := buckets_valid wl len (i, w) hm
      have hlen := buckets_len wl len (i, w) hm
      exact buckets_complete wl len j w (by omega) hget (by simpa using hlen)
    · exact ih _

/-- Once blocked, a word stays blocked: the running best only moves to a
strictly better accepted score. -/
theorem blockedCand_step (cw : RStr) (t : ℚ) (best : Option (RStr × ℚ)) (w x : RStr)
    (c : ℚ) (hb : blockedCand cw t best w) (hbeats : beatsBest c best) :
    blockedCand cw t (some (x, c)) w := by
  obtain ⟨h0, hd⟩ := hb
  refine ⟨h0, ?_⟩
  rcases hd with h | h | ⟨y, s, hbs, hse⟩
  · exact Or.inl h
  · exact Or.inr (Or.inl h)
  · subst hbs
    simp only [beatsBest] at hbeats
    exact Or.inr (Or.inr ⟨x, c, rfl, le_trans (le_of_lt hbeats) hse⟩)

/-- Core agreement: on a candidate list that is valid over the lowercase
list and resolves first occurrences through `position` (later duplicates
being protected by the blocked invariant), the generic loop of
`apply_corrections_impl` applied to the distance-erased candidates
computes exactly the first component of the stored-index bucket loop. -/
theorem scan_agree (ow wl : List RStr) (cw : RStr) (t : ℚ) :
    ∀ (cands : List (Nat × RStr)) (best : Option (RStr × ℚ)) (seen : List RStr),
    ValidCands wl cands →
    NoDupPos wl cands seen →
    (∀ w ∈ seen, blockedCand cw t best w) →
    findBest ow wl cw t (cands.map (fun p => (levenshtein cw p.2, p.2))) best
      = (bucket_scan ow cw t cands best).map Prod.fst := by
  intro cands
  induction cands with
  | nil =>
    intro best seen _ _ _
    rfl
  | cons hd tl ih =>
    intro best seen hvalid hnodup hblocked
    obtain ⟨i, w⟩ := hd
    obtain ⟨hdup, hnodup'⟩ := hnodup
    have hvalid' : ValidCands wl tl := fun p hp => hvalid p (List.mem_cons_of_mem _ hp)
    obtain ⟨hiw, hgetw⟩ := hvalid (i, w) (List.mem_cons_self _ _)
    obtain ⟨j, hpos, hjle⟩ := position_exists wl w i hiw hgetw
    simp only [List.map_cons, findBest, bucket_scan, hpos]
    by_cases h0 : levenshtein cw w = 0
    · rw [if_pos h0, if_pos h0]
      have hji : j = i := by
        rcases hdup with hseen | hposi
        · exact absurd h0 (hblocked w hseen).1
        · rw [hposi] at hpos
          exact (Option.some.inj hpos).symm
      rw [hji]
      rfl
    · rw [if_neg h0, if_neg h0]
      by_cases hskip : t < scoreOfDist cw w (levenshtein cw w)
      · rw [if_pos hskip, if_pos hskip]
        refine ih best (w :: seen) hvalid' hnodup' ?_
        intro w2 hw2
        rcases List.mem_cons.mp hw2 with rfl | hw2
        · exact ⟨h0, Or.inl hskip⟩
        · exact hblocked w2 hw2
      · rw [if_neg hskip, if_neg hskip]
        by_cases hacc : combinedOf cw w (scoreOfDist cw w (levenshtein cw w)) < t ∧
            beatsBest (combinedOf cw w (scoreOfDist cw w (levenshtein cw w))) best
        · rw [if_pos hacc, if_pos hacc]
          have hji : j = i := by
            rcases hdup with hseen | hposi
            · obtain ⟨_, hd2⟩ := hblocked w hseen
              rcases hd2 with hsk | hnc | ⟨x, s, hbs, hsle⟩
              · exact absurd hsk hskip
              · exact absurd hacc.1 hnc
              · rw [hbs] at hacc
                have : combinedOf cw w (scoreOfDist cw w (levenshtein cw w)) < s := hacc.2
                exact absurd this (not_lt.mpr hsle)
            · rw [hposi] at hpos
              exact (Option.some.inj hpos).symm
          rw [hji]
          refine ih _ (w :: seen) hvalid' hnodup' ?_
          intro w2 hw2
          rcases List.mem_cons.mp hw2 with rfl | hw2
          · exact ⟨h0, Or.inr (Or.inr ⟨_, _, rfl, le_refl _⟩)⟩
          · exact blockedCand_step cw t best w2 _ _ (hblocked w2 hw2) hacc.2
        · rw [if_neg hacc, if_neg hacc]
          refine ih best (w :: seen) hvalid' hnodup' ?_
          intro w2 hw2
          rcases List.mem_cons.mp hw2 with rfl | hw2
          · refine ⟨h0, ?_⟩
            rw [Classical.not_and_iff_or_not_not] at hacc
            rcases hacc with hnc | hnb
            · exact Or.inr (Or.inl hnc)
            · cases hbest : best with
              | none =>
                rw [hbest] at hnb
                exact absurd trivial hnb
              | some p =>
                obtain ⟨x, s⟩ := p
                rw [hbest] at hnb
                simp only [beatsBest] at hnb
                exact Or.inr (Or.inr ⟨x, s, rfl, not_lt.mp hnb⟩)
          · exact hblocked w2 hw2

/-- Validity of the window candidates over the lowercase list. -/
theorem window_flat_valid (wl : List RStr) (lens : List Nat) :
    ValidCands wl (lens.flatMap (buckets_of wl)) := by
  intro p hp
  rcases List.mem_flatMap.mp hp with ⟨len, _, hpb⟩
  exact buckets_valid wl len p hpb

/-- Per-token agreement of the cached bucketing path (position lookup on
erased candidates) with the standalone bucketing loop (stored indices and
per-bucket exact break). -/
theorem correct_word_bucketing_eq (v : List RStr) (t : ℚ) (word : RStr) :
    correct_word_impl v (v.map strToLower) t
        (bucket_candidates (buckets_of (v.map strToLower))) word
      = correct_word_bucketing v (buckets_of (v.map strToLower)) t word := by
  unfold correct_word_impl correct_word_bucketing
  by_cases hempty : strToLower (trimNonAlpha word) = []
  · rw [if_pos (Or.inl hempty), if_pos hempty]
  · by_cases hlong : 50 < utf8Len (strToLower (trimNonAlpha word))
    · rw [if_pos (Or.inr hlong), if_neg hempty, if_pos hlong]
    · rw [if_neg (by tauto), if_neg hempty, if_neg hlong]
      have hflat : bucket_candidates (buckets_of (v.map strToLower))
            (strToLower (trimNonAlpha word))
          = (((window_lens (utf8Len (strToLower (trimNonAlpha word)))).flatMap
              (buckets_of (v.map strToLower))).map
                (fun p => (levenshtein (strToLower (trimNonAlpha word)) p.2, p.2))) := by
        unfold bucket_candidates
        rw [List.map_flatMap]
      rw [hflat,
        scan_agree v (v.map strToLower) (strToLower (trimNonAlpha word)) t _ none []
          (window_flat_valid _ _) (flatMap_buckets_NoDupPos _ _ _)
          (fun w hw => absurd hw (List.not_mem_nil w)),
        ← bucket_scan_window_eq_flat v (strToLower (trimNonAlpha word)) t
          (buckets_of (v.map strToLower)) hempty _ none (fun p hp => by cases hp)]

/-- Per-token agreement of the cached metric-tree path with the
standalone metric-tree loop (the two Rust loop bodies coincide). -/
theorem correct_word_bktree_eq (v : List RStr) (tree : BKTreeRust) (fuel : Nat)
    (t : ℚ) (word : RStr) :
    correct_word_impl v (v.map strToLower) t (bktree_candidates tree fuel t) word
      = correct_word_bktree v (v.map strToLower) tree fuel t word := by
  unfold correct_word_impl correct_word_bktree bktree_candidates
  by_cases hempty : strToLower (trimNonAlpha word) = []
  · rw [if_pos (Or.inl hempty), if_pos hempty]
  · by_cases hlong : 50 < utf8Len (strToLower (trimNonAlpha word))
    · rw [if_pos (Or.inr hlong), if_neg hempty, if_pos hlong]
    · rw [if_neg (by tauto), if_neg hempty, if_neg hlong]
      simp only [bktree_scan_eq_findBest]

/-- C10: the cached correction path computes exactly the one-shot path:
`CustomWordsCache::new(v).apply_corrections(text, v, t)` equals
`apply_custom_words(text, v, t)` for every text, vocabulary and
threshold. -/
theorem c10_cache_equals_oneshot (text : RStr) (custom_words : List RStr) (t : ℚ) :
    (CustomWordsCache.new custom_words).apply_corrections text custom_words t
      = apply_custom_words text custom_words t := by
  by_cases hempty : custom_words.isEmpty
  · have hcache : CustomWordsCache.new custom_words = ⟨[], fun _ => [], none⟩ := by
      unfold CustomWordsCache.new
      rw [if_pos hempty]
    rw [hcache]
    unfold CustomWordsCache.apply_corrections apply_custom_words
    rw [if_pos hempty]
    rfl
  · have hef : custom_words.isEmpty = false := Bool.not_eq_true _ |>.mp hempty
    have hmapne : (custom_words.map strToLower).isEmpty = false := by
      cases custom_words with
      | nil => simp at hef
      | cons a l => rfl
    by_cases hlen : BKTREE_THRESHOLD ≤ custom_words.length
    · have hcache : CustomWordsCache.new custom_words
          = ⟨custom_words.map strToLower, fun _ => [],
              some (bktree_of (custom_words.map strToLower))⟩ := by
        simp [CustomWordsCache.new, hef, hlen]
      have hfun : correct_word_impl custom_words (custom_words.map strToLower) t
            (bktree_candidates (bktree_of (custom_words.map strToLower))
              (custom_words.length + 1) t)
          = correct_word_bktree custom_words (custom_words.map strToLower)
              (bktree_of (custom_words.map strToLower)) (custom_words.length + 1) t := by
        funext word
        exact correct_word_bktree_eq custom_words _ _ t word
      rw [hcache]
      simp only [CustomWordsCache.apply_corrections, CustomWordsCache.apply_with_bktree,
        hmapne, Bool.false_eq_true, if_false, Option.isSome_some, if_true,
        Option.getD_some, apply_corrections_impl, List.length_map,
        apply_custom_words, hef, hlen, apply_custom_words_bktree, hfun]
    · have hcache : CustomWordsCache.new custom_words
          = ⟨custom_words.map strToLower,
              buckets_of (custom_words.map strToLower), none⟩ := by
        simp [CustomWordsCache.new, hef, hlen]
      have hfun : correct_word_impl custom_words (custom_words.map strToLower) t
            (bucket_candidates (buckets_of (custom_words.map strToLower)))
          = correct_word_bucketing custom_words
              (buckets_of (custom_words.map strToLower)) t := by
        funext word
        exact correct_word_bucketing_eq custom_words t word
      rw [hcache]
      simp only [CustomWordsCache.apply_corrections, CustomWordsCache.apply_with_bucketing,
        hmapne, Bool.false_eq_true, if_false, Option.isSome_none,
        apply_corrections_impl, apply_custom_words, hef, hlen,
        apply_custom_words_bucketing, hfun]

theorem levF_self : ∀ (fuel : Nat) (s : List Char), s.length ≤ fuel → levF fuel s s = 0 := by
  intro fuel s
  induction s generalizing fuel with
  | nil =>
    intro _
    cases fuel <;> rfl
  | cons a s ih =>
    intro h
    cases fuel with
    | zero => simp at h
    | succ f =>
      simp only [levF, if_pos rfl]
      exact ih f (by simpa using h)

theorem levenshtein_self (s : List Char) : levenshtein s s = 0 :=
  levF_self _ s (by omega)

theorem levF_eq_zero : ∀ (fuel : Nat) (s t : List Char), levF fuel s t = 0 → s = t := by
  intro fuel
  induction fuel with
  | zero =>
    intro s t h
    cases s with
    | nil =>
      cases t with
      | nil => rfl
      | cons b t => simp [levF] at h
    | cons a s =>
      cases t with
      | nil => simp [levF] at h
      | cons b t => simp [levF] at h
  | succ f ih =>
    intro s t h
    cases s with
    | nil =>
      cases t with
      | nil => rfl
      | cons b t => simp [levF] at h
    | cons a s =>
      cases t with
      | nil => simp [levF] at h
      | cons b t =>
        simp only [levF] at h
        split_ifs at h with hab
        · rw [hab, ih s t h]
        · omega

theorem levenshtein_eq_zero (s t : List Char) (h : levenshtein s t = 0) : s = t :=
  levF_eq_zero _ s t h

theorem MemD_mono : ∀ (n : BKNode) (w : RStr) (k k2 : Nat), MemD n w k → k ≤ k2 →
    MemD n w k2 := by
  intro n w k k2 h
  induction h generalizing k2 with
  | here key children k =>
    intro hk
    obtain ⟨k3, rfl⟩ : ∃ k3, k2 = k3 + 1 := ⟨k2 - 1, by omega⟩
    exact MemD.here key children k3
  | there key children w c k hc hm ih =>
    intro hk
    obtain ⟨k3, rfl⟩ : ∃ k3, k2 = k3 + 1 := ⟨k2 - 1, by omega⟩
    exact MemD.there key children w c k3 hc (ih k3 (by omega))

theorem addChildF_mem (go : BKNode → BKNode) :
    ∀ (l : List (Nat × BKNode)) (d : Nat) (w0 : RStr) (e : Nat) (c : BKNode),
    (e, c) ∈ l →
    (e, c) ∈ addChildF go l d w0 ∨ (e = d ∧ (e, go c) ∈ addChildF go l d w0) := by
  intro l
  induction l with
  | nil =>
    intro d w0 e c h
    cases h
  | cons hd tl ih =>
    intro d w0 e c h
    obtain ⟨k, c0⟩ := hd
    simp only [addChildF]
    rcases List.mem_cons.mp h with heq | htl
    · cases heq
      by_cases hk : e = d
      · rw [if_pos hk]
        exact Or.inr ⟨hk, List.mem_cons_self _ _⟩
      · rw [if_neg hk]
        exact Or.inl (List.mem_cons_self _ _)
    · by_cases hk : k = d
      · rw [if_pos hk]
        exact Or.inl (List.mem_cons_of_mem _ htl)
      · rw [if_neg hk]
        rcases ih d w0 e c htl with h1 | ⟨h2, h3⟩
        · exact Or.inl (List.mem_cons_of_mem _ h1)
        · exact Or.inr ⟨h2, List.mem_cons_of_mem _ h3⟩

theorem add_preserves : ∀ (k : Nat) (n : BKNode) (w : RStr), MemD n w k →
    ∀ (fuel : Nat) (w0 : RStr), MemD (BKNode.add fuel n w0) w k := by
  intro k n w h
  induction h with
  | here key children k =>
    intro fuel w0
    cases fuel with
    | zero => exact MemD.here key children k
    | succ f =>
      simp only [BKNode.add]
      split_ifs
      · exact MemD.here key children k
      · exact MemD.here key _ k
  | there key children w c k hc hm ih =>
    intro fuel w0
    cases fuel with
    | zero => exact MemD.there key children w c k hc hm
    | succ f =>
      simp only [BKNode.add]
      split_ifs with h0
      · exact MemD.there key children w c k hc hm
      · rcases addChildF_mem (fun c => BKNode.add f c w0) children (levenshtein w0 key)
            w0 (levenshtein w key) c hc with h1 | ⟨_, h3⟩
        · exact MemD.there key _ w c k h1 hm
        · exact MemD.there key _ w _ k h3 (ih f w0)

theorem DepthLE_mono : ∀ (n : BKNode) (d d2 : Nat), DepthLE n d → d ≤ d2 →
    DepthLE n d2 := by
  intro n d d2 h
  induction h generalizing d2 with
  | mk key children d hch ih =>
    intro hd
    obtain ⟨d3, rfl⟩ : ∃ d3, d2 = d3 + 1 := ⟨d2 - 1, by omega⟩
    exact DepthLE.mk key children d3 (fun p hp => ih p hp d3 (by omega))

theorem addChildF_cases (go : BKNode → BKNode) :
    ∀ (l : List (Nat × BKNode)) (d : Nat) (w0 : RStr),
    (∃ c, (d, c) ∈ l ∧ (d, go c) ∈ addChildF go l d w0) ∨
      (d, BKNode.mk w0 []) ∈ addChildF go l d w0 := by
  intro l
  induction l with
  | nil =>
    intro d w0
    exact Or.inr (List.mem_cons_self _ _)
  | cons hd tl ih =>
    intro d w0
    obtain ⟨k, c0⟩ := hd
    simp only [addChildF]
    by_cases hk : k = d
    · rw [if_pos hk]
      subst hk
      exact Or.inl ⟨c0, List.mem_cons_self _ _, List.mem_cons_self _ _⟩
    · rw [if_neg hk]
      rcases ih d w0 with ⟨c, h1, h2⟩ | h
      · exact Or.inl ⟨c, List.mem_cons_of_mem _ h1, List.mem_cons_of_mem _ h2⟩
      · exact Or.inr (List.mem_cons_of_mem _ h)

theorem addChildF_depth (go : BKNode → BKNode) (d0 : Nat) :
    ∀ (l : List (Nat × BKNode)) (w0 : RStr) (d : Nat),
    (∀ p ∈ l, DepthLE p.2 d0) →
    (∀ p ∈ l, DepthLE (go p.2) (d0 + 1)) →
    ∀ p ∈ addChildF go l d w0, DepthLE p.2 (d0 + 1) := by
  intro l
  induction l with
  | nil =>
    intro w0 d _ _ p hp
    simp only [addChildF, List.mem_singleton] at hp
    subst hp
    exact DepthLE.mk w0 [] d0 (fun q hq => by cases hq)
  | cons hd tl ih =>
    intro w0 d hl hgo p hp
    obtain ⟨k, c0⟩ := hd
    simp only [addChildF] at hp
    split_ifs at hp with hk
    · rcases List.mem_cons.mp hp with rfl | htl
      · exact hgo (k, c0) (List.mem_cons_self _ _)
      · exact DepthLE_mono _ _ _ (hl p (List.mem_cons_of_mem _ htl)) (by omega)
    · rcases List.mem_cons.mp hp with rfl | htl
      · exact DepthLE_mono _ _ _ (hl (k, c0) (List.mem_cons_self _ _)) (by omega)
      · exact ih w0 d (fun q hq => hl q (List.mem_cons_of_mem _ hq))
          (fun q hq => hgo q (List.mem_cons_of_mem _ hq)) p htl

theorem add_depth : ∀ (d : Nat) (n : BKNode), DepthLE n d →
    ∀ (fuel : Nat) (w0 : RStr), d ≤ fuel → DepthLE (BKNode.add fuel n w0) (d + 1) := by
  intro d n h
  induction h with
  | mk key children d0 hch ih =>
    intro fuel w0 hfuel
    obtain ⟨f, rfl⟩ : ∃ f, fuel = f + 1 := ⟨fuel - 1, by omega⟩
    simp only [BKNode.add]
    split_ifs with h0
    · exact DepthLE_mono _ _ _ (DepthLE.mk key children d0 hch) (by omega)
    · refine DepthLE.mk key _ (d0 + 1) ?_
      refine addChildF_depth _ d0 children w0 _ hch ?_
      intro p hp
      exact ih p hp f w0 (by omega)

theorem add_self : ∀ (d : Nat) (n : BKNode), DepthLE n d →
    ∀ (fuel : Nat) (w : RStr), d ≤ fuel → MemD (BKNode.add fuel n w) w (d + 1) := by
  intro d n h
  induction h with
  | mk key children d0 hch ih =>
    intro fuel w hfuel
    obtain ⟨f, rfl⟩ : ∃ f, fuel = f + 1 := ⟨fuel - 1, by omega⟩
    simp only [BKNode.add]
    split_ifs with h0
    · have : w = key := levenshtein_eq_zero w key h0
      subst this
      exact MemD.here _ _ _
    · rcases addChildF_cases (fun c => BKNode.add f c w) children (levenshtein w key) w
          with ⟨c, hc1, hc2⟩ | happ
      · exact MemD.there key _ w _ (d0 + 1) hc2 (ih (levenshtein w key, c) hc1 f w (by omega))
      · exact MemD.there key _ w _ (d0 + 1) happ
          (MemD_mono _ _ _ _ (MemD.here w [] 0) (by omega))

theorem foldl_add_mem (F : Nat) :
    ∀ (ws : List RStr) (tr : BKTreeRust) (d : Nat),
    (∀ n, tr.root = some n → DepthLE n d) →
    d + ws.length ≤ F + 1 → 1 ≤ d →
    (∀ w, w ∈ ws → ∀ n2, (ws.foldl (fun t w => t.add F w) tr).root = some n2 →
      ∃ k, k ≤ d + ws.length ∧ MemD n2 w k) ∧
    (∀ w k n, tr.root = some n → MemD n w k →
      ∀ n2, (ws.foldl (fun t w => t.add F w) tr).root = some n2 → MemD n2 w k) := by
  intro ws
  induction ws with
  | nil =>
    intro tr d hd hF h1
    refine ⟨?_, ?_⟩
    · intro w hw
      cases hw
    · intro w k n h hm n2 h2
      simp only [List.foldl_nil] at h2
      rw [h] at h2
      rw [← Option.some.inj h2]
      exact hm
  | cons a ws ih =>
    intro tr d hd hF h1
    have harith : d + (a :: ws).length = (d + 1) + ws.length := by
      simp only [List.length_cons]
      omega
    cases htr : tr.root with
    | none =>
      have h1root : (tr.add F a).root = some (.mk a []) := by
        simp [BKTreeRust.add, htr]
      have hdep1 : ∀ n, (tr.add F a).root = some n → DepthLE n (d + 1) := by
        intro n h
        rw [h1root] at h
        rw [← Option.some.inj h]
        exact DepthLE_mono _ 1 _ (DepthLE.mk a [] 0 (fun p hp => by cases hp)) (by omega)
      obtain ⟨ihm, ihp⟩ := ih (tr.add F a) (d + 1) hdep1
        (by simp only [List.length_cons] at hF; omega) (by omega)
      refine ⟨?_, ?_⟩
      · intro w hw n2 h2
        simp only [List.foldl_cons] at h2
        rcases List.mem_cons.mp hw with rfl | hw2
        · have hmem : MemD (.mk w []) w 1 := MemD.here w [] 0
          have := ihp w 1 _ h1root hmem n2 h2
          exact ⟨1, by omega, this⟩
        · obtain ⟨k, hk, hm⟩ := ihm w hw2 n2 h2
          exact ⟨k, by omega, hm⟩
      · intro w k n h _ n2 _
        cases h
    | some n0 =>
      have h1root : (tr.add F a).root = some (n0.add F a) := by
        simp [BKTreeRust.add, htr]
      have hdep0 : DepthLE n0 d := hd n0 htr
      have hdep1 : ∀ n, (tr.add F a).root = some n → DepthLE n (d + 1) := by
        intro n h
        rw [h1root] at h
        rw [← Option.some.inj h]
        exact add_depth d n0 hdep0 F a (by simp only [List.length_cons] at hF; omega)
      obtain ⟨ihm, ihp⟩ := ih (tr.add F a) (d + 1) hdep1
        (by simp only [List.length_cons] at hF; omega) (by omega)
      refine ⟨?_, ?_⟩
      · intro w hw n2 h2
        simp only [List.foldl_cons] at h2
        rcases List.mem_cons.mp hw with rfl | hw2
        · have hmem : MemD (n0.add F w) w (d + 1) :=
            add_self d n0 hdep0 F w (by simp only [List.length_cons] at hF; omega)
          have := ihp w (d + 1) _ h1root hmem n2 h2
          exact ⟨d + 1, by simp only [List.length_cons]; omega, this⟩
        · obtain ⟨k, hk, hm⟩ := ihm w hw2 n2 h2
          exact ⟨k, by simp only [List.length_cons]; omega, hm⟩
      · intro w k n h hm n2 h2
        simp only [List.foldl_cons] at h2
        rw [← Option.some.inj h] at hm
        exact ihp w k _ h1root (add_preserves k n0 w hm F a) n2 h2

theorem foldl_add_some (F : Nat) :
    ∀ (ws : List RStr) (tr : BKTreeRust), tr.root.isSome →
    (ws.foldl (fun t w => t.add F w) tr).root.isSome := by
  intro ws
  induction ws with
  | nil =>
    intro tr h
    exact h
  | cons a ws ih =>
    intro tr h
    simp only [List.foldl_cons]
    refine ih (tr.add F a) ?_
    cases htr : tr.root <;> simp [BKTreeRust.add, htr]

theorem bktree_of_mem (ws : List RStr) (w : RStr) (hw : w ∈ ws) :
    ∃ n k, (bktree_of ws).root = some n ∧ MemD n w k ∧ k ≤ ws.length + 1 := by
  have hsome : (bktree_of ws).root.isSome := by
    cases ws with
    | nil => cases hw
    | cons a ws0 =>
      unfold bktree_of
      simp only [List.foldl_cons]
      exact foldl_add_some _ ws0 _ (by simp [BKTreeRust.add])
  obtain ⟨n, hn⟩ := Option.isSome_iff_exists.mp hsome
  obtain ⟨hm, _⟩ := foldl_add_mem (ws.length + 1) ws ⟨none⟩ 1
    (fun n h => by cases h) (by omega) (le_refl 1)
  obtain ⟨k, hk, hmem⟩ := hm w hw n hn
  exact ⟨n, k, hn, hmem, by omega⟩

theorem findChildrenF_sub (go : BKNode → List (Nat × RStr)) (tol d : Nat) :
    ∀ (l : List (Nat × BKNode)) (e : Nat) (c : BKNode) (x : Nat × RStr),
    (e, c) ∈ l → d - e ≤ tol → e - d ≤ tol → x ∈ go c →
    x ∈ findChildrenF go tol d l := by
  intro l
  induction l with
  | nil =>
    intro e c x h
    cases h
  | cons hd tl ih =>
    intro e c x h h1 h2 hx
    obtain ⟨k, c0⟩ := hd
    simp only [findChildrenF]
    rcases List.mem_cons.mp h with heq | htl
    · cases heq
      rw [if_pos ⟨h1, h2⟩]
      exact List.mem_append_left _ hx
    · exact List.mem_append_right _ (ih e c x htl h1 h2 hx)

theorem find_exact (q : RStr) (tol : Nat) :
    ∀ (k : Nat) (n : BKNode), MemD n q k → ∀ (fuel : Nat), k ≤ fuel →
    (0, q) ∈ BKNode.find q tol fuel n := by
  intro k n h
  induction h with
  | here key children k0 =>
    intro fuel hf
    obtain ⟨f, rfl⟩ : ∃ f, fuel = f + 1 := ⟨fuel - 1, by omega⟩
    simp only [BKNode.find]
    rw [levenshtein_self, if_pos (Nat.zero_le tol)]
    exact List.mem_append_left _ (List.mem_singleton.mpr rfl)
  | there key children w c k0 hc hm ih =>
    intro fuel hf
    obtain ⟨f, rfl⟩ : ∃ f, fuel = f + 1 := ⟨fuel - 1, by omega⟩
    simp only [BKNode.find]
    refine List.mem_append_right _ ?_
    exact findChildrenF_sub _ tol _ children (levenshtein w key) c (0, w) hc
      (by omega) (by omega) (ih f (by omega))

theorem findChildrenF_inv (go : BKNode → List (Nat × RStr)) (tol d : Nat) :
    ∀ (l : List (Nat × BKNode)) (x : Nat × RStr), x ∈ findChildrenF go tol d l →
    ∃ e c, (e, c) ∈ l ∧ x ∈ go c := by
  intro l
  induction l with
  | nil =>
    intro x h
    cases h
  | cons hd tl ih =>
    intro x h
    obtain ⟨k, c0⟩ := hd
    simp only [findChildrenF] at h
    rcases List.mem_append.mp h with h1 | h2
    · split_ifs at h1 with hcond
      · exact ⟨k, c0, List.mem_cons_self _ _, h1⟩
      · cases h1
    · obtain ⟨e, c, hc, hx⟩ := ih x h2
      exact ⟨e, c, List.mem_cons_of_mem _ hc, hx⟩

theorem find_dists (q : RStr) (tol : Nat) :
    ∀ (fuel : Nat) (n : BKNode) (p : Nat × RStr), p ∈ BKNode.find q tol fuel n →
    p.1 = levenshtein q p.2 := by
  intro fuel
  induction fuel with
  | zero =>
    intro n p h
    simp [BKNode.find] at h
  | succ f ih =>
    intro n p h
    obtain ⟨key, children⟩ := n
    simp only [BKNode.find] at h
    rcases List.mem_append.mp h with h1 | h2
    · split_ifs at h1 with hd
      · rw [List.mem_singleton.mp h1]
      · cases h1
    · obtain ⟨e, c, _, hx⟩ := findChildrenF_inv _ tol _ children p h2
      exact ih c p hx

/-- On a candidate list whose distances are genuine and which contains a
distance-0 entry, the candidate loop returns the original word at the
`position` of the cleaned word, whatever the running best. -/
theorem scan_exact (ow wl : List RStr) (cw : RStr) (t : ℚ) (j : Nat)
    (hpos : position wl cw = some j) :
    ∀ (cands : List (Nat × RStr)) (best : Option (RStr × ℚ)),
    (∀ p ∈ cands, p.1 = levenshtein cw p.2) →
    (∃ p ∈ cands, p.1 = 0) →
    findBest ow wl cw t cands best = some (ow.getD j []) := by
  intro cands
  induction cands with
  | nil =>
    intro best _ hex
    obtain ⟨p, hp, _⟩ := hex
    cases hp
  | cons hd tl ih =>
    intro best hdists hex
    obtain ⟨dist, cand⟩ := hd
    have hdtl : ∀ p ∈ tl, p.1 = levenshtein cw p.2 :=
      fun p hp => hdists p (List.mem_cons_of_mem _ hp)
    by_cases h0 : dist = 0
    · have hdc : dist = levenshtein cw cand := hdists (dist, cand) (List.mem_cons_self _ _)
      have hlev : levenshtein cw cand = 0 := by omega
      have hc : cw = cand := levenshtein_eq_zero cw cand hlev
      subst hc
      simp only [findBest, hpos]
      rw [if_pos h0]
    · have hex2 : ∃ p ∈ tl, p.1 = 0 := by
        obtain ⟨p, hp, hp0⟩ := hex
        rcases List.mem_cons.mp hp with rfl | htl
        · exact absurd hp0 h0
        · exact ⟨p, htl, hp0⟩
      simp only [findBest]
      cases hp2 : position wl cand with
      | none =>
        exact ih best hdtl hex2
      | some i =>
        dsimp only
        rw [if_neg h0]
        split_ifs <;> exact ih _ hdtl hex2

theorem bucket_candidates_dists (buckets : Nat → List (Nat × RStr)) (cw : RStr) :
    ∀ p ∈ bucket_candidates buckets cw, p.1 = levenshtein cw p.2 := by
  intro p hp
  unfold bucket_candidates at hp
  rcases List.mem_flatMap.mp hp with ⟨len, _, hpm⟩
  rcases List.mem_map.mp hpm with ⟨q, _, rfl⟩
  rfl

theorem bucket_candidates_exact (wl : List RStr) (cw : RStr) (i : Nat)
    (hi : i < wl.length) (hget : wl.getD i [] = cw) :
    (0, cw) ∈ bucket_candidates (buckets_of wl) cw := by
  unfold bucket_candidates
  apply List.mem_flatMap.mpr
  refine ⟨utf8Len cw, ?_, ?_⟩
  · unfold window_lens
    apply List.mem_range'_1.mpr
    omega
  · apply List.mem_map.mpr
    refine ⟨(i, cw), buckets_complete wl (utf8Len cw) i cw hi hget rfl, ?_⟩
    simp [levenshtein_self]

theorem bktree_candidates_dists (tree : BKTreeRust) (fuel : Nat) (t : ℚ) (cw : RStr) :
    ∀ p ∈ bktree_candidates tree fuel t cw, p.1 = levenshtein cw p.2 := by
  intro p hp
  unfold bktree_candidates BKTreeRust.find at hp
  cases htr : tree.root with
  | none =>
    rw [htr] at hp
    cases hp
  | some n =>
    rw [htr] at hp
    exact find_dists cw _ fuel n p hp

theorem bktree_candidates_exact (wl : List RStr) (cw : RStr) (t : ℚ) (hcw : cw ∈ wl) :
    (0, cw) ∈ bktree_candidates (bktree_of wl) (wl.length + 1) t cw := by
  obtain ⟨n, k, hroot, hmem, hk⟩ := bktree_of_mem wl cw hcw
  unfold bktree_candidates BKTreeRust.find
  rw [hroot]
  exact find_exact cw _ k n hmem (wl.length + 1) hk

/-- Exact-token behaviour of both standalone strategies: a token whose
cleaned form occurs in the lowercase vocabulary is rewritten by both
strategies with the original entry at the `position` (first occurrence)
of that cleaned form. -/
theorem correct_word_exact (v : List RStr) (t : ℚ) (word : RStr)
    (hne : strToLower (trimNonAlpha word) ≠ [])
    (hlong : ¬ 50 < utf8Len (strToLower (trimNonAlpha word)))
    (i : Nat) (hi : i < (v.map strToLower).length)
    (hget : (v.map strToLower).getD i [] = strToLower (trimNonAlpha word)) :
    ∃ j, position (v.map strToLower) (strToLower (trimNonAlpha word)) = some j ∧ j ≤ i ∧
      correct_word_bucketing v (buckets_of (v.map strToLower)) t word
        = (extract_punctuation word).map
            (fun ps => ps.1 ++ preserve_case_pattern word (v.getD j []) ++ ps.2) ∧
      correct_word_bktree v (v.map strToLower) (bktree_of (v.map strToLower))
          (v.length + 1) t word
        = (extract_punctuation word).map
            (fun ps => ps.1 ++ preserve_case_pattern word (v.getD j []) ++ ps.2) := by
  obtain ⟨j, hpos, hle⟩ := position_exists _ _ i hi hget
  have hcwmem : strToLower (trimNonAlpha word) ∈ v.map strToLower := by
    rw [← hget, List.getD_eq_getElem _ _ hi]
    exact List.getElem_mem hi
  refine ⟨j, hpos, hle, ?_, ?_⟩
  · rw [← correct_word_bucketing_eq]
    unfold correct_word_impl
    rw [if_neg (by tauto)]
    rw [scan_exact v (v.map strToLower) _ t j hpos _ none
      (bucket_candidates_dists _ _)
      ⟨(0, _), bucket_candidates_exact _ _ i hi hget, rfl⟩]
    cases extract_punctuation word <;> rfl
  · rw [← correct_word_bktree_eq]
    unfold correct_word_impl
    rw [if_neg (by tauto)]
    have hflen : (v.map strToLower).length + 1 = v.length + 1 := by simp
    rw [scan_exact v (v.map strToLower) _ t j hpos _ none
      (by
        intro p hp
        refine bktree_candidates_dists (bktree_of (v.map strToLower)) (v.length + 1) t _ p ?_
        exact hp)
      ⟨(0, _), by
        have := bktree_candidates_exact (v.map strToLower) (strToLower (trimNonAlpha word))
          t hcwmem
        rw [hflen] at this
        exact this, rfl⟩]
    cases extract_punctuation word <;> rfl

/-- Congruence for `mapM` over `Option`. -/
theorem mapM_option_congr {α β : Type} (f g : α → Option β) :
    ∀ (l : List α), (∀ a ∈ l, f a = g a) → l.mapM f = l.mapM g := by
  intro l
  induction l with
  | nil =>
    intro _
    rfl
  | cons a l ih =>
    intro h
    simp only [List.mapM_cons, h a (List.mem_cons_self _ _),
      ih (fun b hb => h b (List.mem_cons_of_mem _ hb))]

/-- C1 amended: the two retrieval strategies agree on every text whose
tokens all clean to the empty string, to an over-long string, or to an
exact lowercase vocabulary match; in general they differ (see the
counterexample). -/
theorem c1_amended_exact_token_equivalence (text : RStr) (v : List RStr) (t : ℚ)
    (h : ∀ word ∈ split_whitespace text,
      strToLower (trimNonAlpha word) = [] ∨
      50 < utf8Len (strToLower (trimNonAlpha word)) ∨
      strToLower (trimNonAlpha word) ∈ v.map strToLower) :
    apply_custom_words_bucketing text v t = apply_custom_words_bktree text v t := by
  have hmapm : (split_whitespace text).mapM
        (correct_word_bucketing v (buckets_of (v.map strToLower)) t)
      = (split_whitespace text).mapM
        (correct_word_bktree v (v.map strToLower) (bktree_of (v.map strToLower))
          (v.length + 1) t) := by
    apply mapM_option_congr
    intro word hword
    by_cases hne : strToLower (trimNonAlpha word) = []
    · unfold correct_word_bucketing correct_word_bktree
      rw [if_pos hne, if_pos hne]
    · by_cases hlong : 50 < utf8Len (strToLower (trimNonAlpha word))
      · unfold correct_word_bucketing correct_word_bktree
        rw [if_neg hne, if_pos hlong, if_neg hne, if_pos hlong]
      · rcases h word hword with h1 | h2 | h3
        · exact absurd h1 hne
        · exact absurd h2 hlong
        · obtain ⟨⟨i, hi⟩, hg⟩ := List.mem_iff_get.mp h3
          have hget : (v.map strToLower).getD i [] = strToLower (trimNonAlpha word) := by
            rw [List.getD_eq_getElem _ _ hi]
            simpa using hg
          obtain ⟨j, _, _, hbk, htr⟩ := correct_word_exact v t word hne hlong i hi hget
          rw [hbk, htr]
  simp only [apply_custom_words_bucketing, apply_custom_words_bktree]
  rw [hmapm]

/-- Witness for the amended C1: the single exact-match token `hello`
against the vocabulary `[Hello]` yields identical outputs for the two
strategies. -/
theorem c1_amended_witness :
    apply_custom_words_bucketing ("hello".toList) ["Hello".toList] (mkRat 1 2)
      = apply_custom_words_bktree ("hello".toList) ["Hello".toList] (mkRat 1 2) :=
  c1_amended_exact_token_equivalence ("hello".toList) ["Hello".toList] (mkRat 1 2)
    (by decide)

/-- C7 amended: a token whose cleaned form equals the lowercase form of
vocabulary entry `i` is replaced (by both strategies) with the
original-case entry at the LEAST index `j` sharing that lowercase form
(so `j = i` exactly when lowercase forms are pairwise distinct), not
necessarily with entry `i` itself. -/
theorem c7_amended_first_index_resolution (v : List RStr) (t : ℚ) (word : RStr) (i : Nat)
    (hi : i < v.length)
    (hcl : strToLower (trimNonAlpha word) = strToLower (v.getD i []))
    (hne : strToLower (trimNonAlpha word) ≠ [])
    (hlong : ¬ 50 < utf8Len (strToLower (trimNonAlpha word))) :
    ∃ j, j ≤ i ∧ strToLower (v.getD j []) = strToLower (v.getD i []) ∧
      (∀ k, k < j → strToLower (v.getD k []) ≠ strToLower (v.getD i [])) ∧
      correct_word_bucketing v (buckets_of (v.map strToLower)) t word
        = (extract_punctuation word).map
            (fun ps => ps.1 ++ preserve_case_pattern word (v.getD j []) ++ ps.2) ∧
      correct_word_bktree v (v.map strToLower) (bktree_of (v.map strToLower))
          (v.length + 1) t word
        = (extract_punctuation word).map
            (fun ps => ps.1 ++ preserve_case_pattern word (v.getD j []) ++ ps.2) := by
  have hmaplen : i < (v.map strToLower).length := by simpa using hi
  have hmapget : ∀ k, k < v.length →
      (v.map strToLower).getD k [] = strToLower (v.getD k []) := by
    intro k hk
    rw [List.getD_eq_getElem _ _ (by simpa using hk), List.getD_eq_getElem _ _ hk]
    simp
  have hget : (v.map strToLower).getD i [] = strToLower (trimNonAlpha word) := by
    rw [hmapget i hi, hcl]
  obtain ⟨j, hpos, hle, hbk, htr⟩ := correct_word_exact v t word hne hlong i hmaplen hget
  obtain ⟨hjlt, hjget, hjmin⟩ := position_spec _ _ _ hpos
  have hjv : j < v.length := by simpa using hjlt
  refine ⟨j, hle, ?_, ?_, hbk, htr⟩
  · rw [← hmapget j hjv, hjget, hcl]
  · intro k hk
    have hkv : k < v.length := by omega
    rw [← hmapget k hkv, ← hcl]
    exact hjmin k hk

/-- Witness for the amended C7: with vocabulary `[Foo, FOO]` the token
`foo` exactly matching entry 1's lowercase form resolves to index 0. -/
theorem c7_amended_witness :
    ∃ j, j ≤ 1 ∧
      strToLower (["Foo".toList, "FOO".toList].getD j [])
        = strToLower (["Foo".toList, "FOO".toList].getD 1 []) ∧
      (∀ k, k < j →
        strToLower (["Foo".toList, "FOO".toList].getD k [])
          ≠ strToLower (["Foo".toList, "FOO".toList].getD 1 [])) ∧
      correct_word_bucketing ["Foo".toList, "FOO".toList]
          (buckets_of (["Foo".toList, "FOO".toList].map strToLower)) (mkRat 1 2)
          ("foo".toList)
        = (extract_punctuation ("foo".toList)).map
            (fun ps => ps.1 ++
              preserve_case_pattern ("foo".toList)
                (["Foo".toList, "FOO".toList].getD j []) ++ ps.2) ∧
      correct_word_bktree ["Foo".toList, "FOO".toList]
          (["Foo".toList, "FOO".toList].map strToLower)
          (bktree_of (["Foo".toList, "FOO".toList].map strToLower))
          (["Foo".toList, "FOO".toList].length + 1) (mkRat 1 2) ("foo".toList)
        = (extract_punctuation ("foo".toList)).map
            (fun ps => ps.1 ++
              preserve_case_pattern ("foo".toList)
                (["Foo".toList, "FOO".toList].getD j []) ++ ps.2) :=
  c7_amended_first_index_resolution ["Foo".toList, "FOO".toList] (mkRat 1 2)
    ("foo".toList) 1 (by decide) (by decide) (by decide) (by decide)

end HandyMed
